import Mathlib

/-!
Verification development for the elpx-viewer parsing/validation core.

The JavaScript sources are shallowly embedded below: pure functions become
Lean functions, DOM documents become an explicit tree type, and the small
number of platform built-ins used by the code (DOMParser, JSON.parse,
decodeURIComponent, encodeURI) are modelled explicitly where the spec
describes their use.  Machine floats do not occur on the verified paths:
all numbers flowing through the page pipeline are integers produced by
parseInt.
-/

/-! ### Character/string helpers (JS string built-ins, char-list based) -/

/-- Whitespace as recognised by the JS `trim`/`parseInt` built-ins
(restricted to the common ASCII whitespace characters). -/
def jsWhitespace (c : Char) : Bool :=
  c = ' ' ∨ c = '\t' ∨ c = '\n' ∨ c = '\r'

/-- Model of `String.prototype.trim`. -/
def jsTrim (s : String) : String :=
  ⟨((s.data.dropWhile jsWhitespace).reverse.dropWhile jsWhitespace).reverse⟩

/-- ASCII lower-casing of one character (tags compared by the code are ASCII). -/
def lowerChar (c : Char) : Char :=
  if 'A' ≤ c ∧ c ≤ 'Z' then Char.ofNat (c.toNat + 32) else c

/-- Model of `String.prototype.toLowerCase` (ASCII). -/
def lowerStr (s : String) : String :=
  ⟨s.data.map lowerChar⟩

/-- Model of `Array.prototype.join(sep)`. -/
def joinSep (sep : String) : List String → String
  | [] => ""
  | [x] => x
  | x :: rest => x ++ sep ++ joinSep sep rest

/-- Numeric value of a run of decimal digits. -/
def natOfDigits (ds : List Char) : Nat :=
  ds.foldl (fun a c => 10 * a + (c.toNat - 48)) 0

/-- Leading digit run of `parseInt`: `none` when there is no digit (NaN). -/
def parseIntDigits (cs : List Char) : Option Nat :=
  let ds := cs.takeWhile Char.isDigit
  if ds.isEmpty then none else some (natOfDigits ds)

/-- Model of `Number.parseInt(s, 10)`: skip leading whitespace, optional
sign, then the leading digit run; `none` models NaN. -/
def parseIntJS (s : String) : Option Int :=
  let cs := s.data.dropWhile jsWhitespace
  match cs with
  | '-' :: rest => (parseIntDigits rest).map (fun n => -(n : Int))
  | '+' :: rest => (parseIntDigits rest).map (fun n => (n : Int))
  | _ => (parseIntDigits cs).map (fun n => (n : Int))

/-! ### XML document model

DOM documents are modelled as trees of element and text nodes.  `children`
in DOM order; element attributes as an association list.  Namespaces are
not modelled, so `localName` and `tagName` coincide in `xtag`. -/

mutual
inductive XNode where
  | elem (tag : String) (attrs : List (String × String)) (children : XForest)
  | text (s : String)
  deriving DecidableEq
inductive XForest where
  | nil
  | cons (n : XNode) (rest : XForest)
  deriving DecidableEq
end

/-- Build a forest from a list (convenience for writing documents). -/
def XForest.ofList : List XNode → XForest
  | [] => .nil
  | n :: rest => .cons n (XForest.ofList rest)

/-- The child nodes of a forest as a list. -/
def XForest.toList : XForest → List XNode
  | .nil => []
  | .cons n rest => n :: XForest.toList rest

/-- Tag name of a node (empty for text nodes). -/
def xtag : XNode → String
  | .elem t _ _ => t
  | .text _ => ""

/-- Element-node test. -/
def isElem : XNode → Bool
  | .elem _ _ _ => true
  | .text _ => false

/-- Model of `getAttribute`: `none` models a `null` return. -/
def getAttr : XNode → String → Option String
  | .elem _ attrs _, k => (attrs.find? (fun kv => kv.1 = k)).map (·.2)
  | .text _, _ => none

mutual
/-- Model of DOM `textContent`: concatenation of all descendant text. -/
def textContent : XNode → String
  | .text s => s
  | .elem _ _ cs => textContentF cs
def textContentF : XForest → String
  | .nil => ""
  | .cons n rest => textContent n ++ textContentF rest
end

mutual
/-- All element nodes of a subtree including the root, in document
(pre-) order — the order `getElementsByTagName` reports matches in. -/
def subtreeElems : XNode → List XNode
  | .text _ => []
  | .elem t a cs => .elem t a cs :: subtreeElemsF cs
def subtreeElemsF : XForest → List XNode
  | .nil => []
  | .cons n rest => subtreeElems n ++ subtreeElemsF rest
end

/-- Model of DOM `element.children`: element children only, in order. -/
def elemChildren : XNode → List XNode
  | .elem _ _ cs => cs.toList.filter isElem
  | .text _ => []

/-- A parsed XML document.  `documentElement = none` models a document
object whose `documentElement` is `null`. -/
structure XMLDocument where
  documentElement : Option XNode
deriving DecidableEq

/-- Model of document-level `getElementsByTagName` (includes the root). -/
def docElems (d : XMLDocument) (t : String) : List XNode :=
  match d.documentElement with
  | none => []
  | some r => (subtreeElems r).filter (fun n => xtag n = t)

/-- Model of element-level `getElementsByTagName` (strict descendants). -/
def descElems (n : XNode) (t : String) : List XNode :=
  match n with
  | .elem _ _ cs => (subtreeElemsF cs).filter (fun m => xtag m = t)
  | .text _ => []

mutual
/-- Specification-level count of elements with a given tag in a subtree,
defined by direct structural recursion (independent of `subtreeElems`). -/
def countTagN : XNode → String → Nat
  | .text _, _ => 0
  | .elem t _ cs, q => (if t = q then 1 else 0) + countTagF cs q
def countTagF : XForest → String → Nat
  | .nil, _ => 0
  | .cons n rest, q => countTagN n q + countTagF rest q
end

/-- Count of elements with a given tag in a whole document. -/
def countTagDoc (d : XMLDocument) (q : String) : Nat :=
  match d.documentElement with
  | none => 0
  | some r => countTagN r q

/-! ### Validator: result type and `checkPagePresence` -/

/-- The `{status, message}` objects the validator checks return. -/
structure ValidationResult where
  status : String
  message : String
deriving DecidableEq

/-- Embedding of `checkPagePresence` (validator.js). -/
def checkPagePresence (d : XMLDocument) : ValidationResult :=
  let pages := docElems d "odeNavStructure"
  if pages.length = 0 then
    ⟨"warning", "No <odeNavStructure> entries were found. The project appears to be empty."⟩
  else
    ⟨"success", "Found " ++ toString pages.length ++ " page" ++
      (if pages.length = 1 then "" else "s") ++ "."⟩

/-! ### XML loader: `parseContentXml` -/

/-- Model of document-level `querySelector` with a plain tag selector:
first matching element in document (pre-) order. -/
def querySel (d : XMLDocument) (t : String) : Option XNode :=
  match d.documentElement with
  | none => none
  | some r => (subtreeElems r).find? (fun n => xtag n = t)

/-- The JS argument of `parseContentXml`, which may not be a string at all
(`null`, `undefined`, or any non-string value). -/
inductive XmlPayload where
  | ofString (s : String)
  | notAString
deriving DecidableEq

/-- Result object of `parseContentXml`.  The JS success object carries no
`message` and the error object carries no `document`; the absent fields are
modelled as `""` and `none`. -/
structure ParseOutcome where
  status : String
  message : String
  document : Option XMLDocument
deriving DecidableEq

/-- Embedding of `parseContentXml` (validator.js).  `domParse` models the
platform `DOMParser`, which signals malformed input by producing a document
containing a `parsererror` element (per the spec, failure means the text is
not well-formed XML; the parser itself is a platform API, modelled
abstractly). -/
def parseContentXml (domParse : String → XMLDocument) (payload : XmlPayload) : ParseOutcome :=
  match payload with
  | .notAString => ⟨"error", "The provided XML payload is not a string.", none⟩
  | .ofString s =>
    let xmlDoc := domParse s
    match querySel xmlDoc "parsererror" with
    | some pe =>
      let detail := jsTrim (textContent pe)
      ⟨"error",
        if detail ≠ "" then "The XML document is not well-formed: " ++ detail
        else "The XML document is not well-formed.", none⟩
    | none => ⟨"success", "", some xmlDoc⟩

/-- A concrete `DOMParser` model used for closed instantiations: `"<a/>"`
parses cleanly, anything else yields a `parsererror` document with detail
text `" boom "`. -/
def domParse0 : String → XMLDocument := fun s =>
  if s = "<a/>" then ⟨some (.elem "a" [] .nil)⟩
  else ⟨some (.elem "parsererror" [] (.cons (.text " boom ") .nil))⟩

/-! ### Structural integrity check -/

/-- Embedding of `formatRequirement`: an alternative-name requirement is
rendered with `" / "` between the names (a plain-string requirement is the
singleton case). -/
def formatRequirement (tags : List String) : String := joinSep " / " tags

/-- Required fields of a navigation record (`REQUIRED_NAV_FIELDS`). -/
def requiredNavFields : List (List String) :=
  [["odePageId"], ["pageName"], ["odeNavStructureSyncOrder", "odeNavStructureOrder"]]

/-- Required fields of a block (`REQUIRED_BLOCK_FIELDS`). -/
def requiredBlockFields : List (List String) := [["odeBlockId"], ["blockName"]]

/-- Required fields of a component (`REQUIRED_COMPONENT_FIELDS`). -/
def requiredComponentFields : List (List String) :=
  [["odeIdeviceId"], ["odeIdeviceTypeName"], ["htmlView"], ["jsonProperties"]]

/-- Embedding of `ensureChildTags`: the formatted requirements for which no
alternative tag name occurs among the node's descendants. -/
def ensureChildTags (node : XNode) (required : List (List String)) : List String :=
  required.filterMap (fun tags =>
    if tags.any (fun t => !(descElems node t).isEmpty) then none
    else some (formatRequirement tags))

/-- A node violates a requirement list when some requirement has none of
its alternative tag names present among the node's descendants. -/
def missesRequired (node : XNode) (required : List (List String)) : Prop :=
  ∃ tags ∈ required, ∀ t ∈ tags, descElems node t = []

/-- Pair each list element with its 0-based position, starting at `k`. -/
def withIdx {α : Type} : Nat → List α → List (Nat × α)
  | _, [] => []
  | k, a :: rest => (k, a) :: withIdx (k + 1) rest

/-- One `issues.push(...)` site: the pushed line when the missing list is
non-empty, nothing otherwise. -/
def issueLine (label : String) (missing : List String) : List String :=
  if missing.isEmpty then [] else [label ++ joinSep ", " missing]

/-- The aggregated issue line for one navigation record (empty if none). -/
def navIssue (i : Nat) (nav : XNode) : List String :=
  issueLine ("Navigation structure #" ++ toString (i + 1) ++ " is missing fields: ")
    (ensureChildTags nav requiredNavFields)

/-- The aggregated issue line for one block (empty if none). -/
def blockIssue (pageIdx blockIdx : Nat) (blk : XNode) : List String :=
  issueLine ("Block #" ++ toString (blockIdx + 1) ++ " in page #" ++ toString (pageIdx + 1) ++
    " is missing fields: ") (ensureChildTags blk requiredBlockFields)

/-- The aggregated issue line for one component (empty if none). -/
def componentIssue (pageIdx blockIdx compIdx : Nat) (comp : XNode) : List String :=
  issueLine ("Component #" ++ toString (compIdx + 1) ++ " in block #" ++ toString (blockIdx + 1) ++
    " of page #" ++ toString (pageIdx + 1) ++ " is missing fields: ")
    (ensureChildTags comp requiredComponentFields)

/-- A structural-integrity violation: some navigation record, block, or
component misses one of its required fields. -/
def structuralViolation (d : XMLDocument) : Prop :=
  (∃ nav ∈ docElems d "odeNavStructure", missesRequired nav requiredNavFields) ∨
  (∃ nav ∈ docElems d "odeNavStructure",
    ∃ blk ∈ descElems nav "odePagStructure", missesRequired blk requiredBlockFields) ∨
  (∃ nav ∈ docElems d "odeNavStructure",
    ∃ blk ∈ descElems nav "odePagStructure",
      ∃ comp ∈ descElems blk "odeComponent", missesRequired comp requiredComponentFields)

/-- The complete `issues` list collected by `validateStructuralIntegrity`,
in the source's push order. -/
def integrityIssues (d : XMLDocument) : List String :=
  ((withIdx 0 (docElems d "odeNavStructure")).map (fun p =>
    navIssue p.1 p.2 ++
    ((withIdx 0 (descElems p.2 "odePagStructure")).map (fun b =>
      blockIssue p.1 b.1 b.2 ++
      ((withIdx 0 (descElems b.2 "odeComponent")).map (fun c =>
        componentIssue p.1 b.1 c.1 c.2)).flatten)).flatten)).flatten

/-- Embedding of `validateStructuralIntegrity` (validator.js). -/
def validateStructuralIntegrity (d : XMLDocument) : ValidationResult :=
  let issues := integrityIssues d
  if issues.isEmpty then ⟨"success", "The internal XML structure matches the expected layout."⟩
  else ⟨"error", joinSep " " issues⟩

/-- Fixture: a component missing `odeIdeviceTypeName`, `htmlView` and
`jsonProperties`. -/
def c3CompBad : XNode :=
  .elem "odeComponent" [] (.ofList [.elem "odeIdeviceId" [] (.ofList [.text "d1"])])

/-- Fixture: a block that is complete itself but contains `c3CompBad`. -/
def c3Block1 : XNode :=
  .elem "odePagStructure" [] (.ofList
    [.elem "odeBlockId" [] (.ofList [.text "b1"]),
     .elem "blockName" [] (.ofList [.text "B1"]),
     c3CompBad])

/-- Fixture: an unrelated block missing `blockName`. -/
def c3Block2 : XNode :=
  .elem "odePagStructure" [] (.ofList [.elem "odeBlockId" [] (.ofList [.text "b2"])])

/-- Fixture: a complete navigation record containing both blocks. -/
def c3Nav : XNode :=
  .elem "odeNavStructure" [] (.ofList
    [.elem "odePageId" [] (.ofList [.text "p1"]),
     .elem "pageName" [] (.ofList [.text "Start"]),
     .elem "odeNavStructureOrder" [] (.ofList [.text "1"]),
     c3Block1, c3Block2])

/-- Fixture document for the structural-integrity check. -/
def c3Doc : XMLDocument :=
  ⟨some (.elem "ode" [] (.ofList [.elem "odeNavStructures" [] (.ofList [c3Nav])]))⟩

/-! ### Legacy metadata: decoded value type and dictionary helpers -/

mutual
/-- Decoded legacy value: a JS string, array, or plain object as produced
by `extractLegacyValue`. -/
inductive LVal where
  | s (v : String)
  | l (vs : LList)
  | d (es : LDict)
  deriving DecidableEq
/-- A JS array of decoded legacy values. -/
inductive LList where
  | nil
  | cons (v : LVal) (rest : LList)
  deriving DecidableEq
/-- A JS object: keys in insertion order. -/
inductive LDict where
  | nil
  | cons (k : String) (v : LVal) (rest : LDict)
  deriving DecidableEq
end

/-- Property read on a JS object (keys are unique in objects the code
builds; first match). -/
def dictGet : LDict → String → Option LVal
  | .nil, _ => none
  | .cons k v rest, q => if k = q then some v else dictGet rest q

/-- Property write on a JS object: replace in place, else append. -/
def dictSet : LDict → String → LVal → LDict
  | .nil, k, v => .cons k v .nil
  | .cons k0 v0 rest, k, v =>
    if k0 = k then .cons k0 v rest else .cons k0 v0 (dictSet rest k v)

/-- Run a sequence of `result[key] = value` assignments on an empty object. -/
def applyAssigns (assigns : List (String × LVal)) : LDict :=
  assigns.foldl (fun d kv => dictSet d kv.1 kv.2) .nil

/-- JS truthiness of a decoded legacy value (objects and arrays are always
truthy; a string is truthy when non-empty). -/
def truthyL : LVal → Bool
  | .s v => v ≠ ""
  | .l _ => true
  | .d _ => true

/-- JS truthiness of a property read (`undefined` is falsy). -/
def truthyO : Option LVal → Bool
  | none => false
  | some v => truthyL v

/-! ### Legacy metadata extraction (`extractLegacyMetadata` and helpers)

`extractLegacyDictionary` pairs each element child carrying
`role="key"` with the next element sibling and decodes that sibling with
`extractLegacyValue`; text nodes are invisible because the source iterates
DOM `children`.  The walk below collects the `result[key] = value`
assignments in source order; `applyAssigns` replays them with JS object
semantics. -/

/-- The key denoted by a `role="key"` element: `value` attribute if truthy,
else its text content (`child.getAttribute('value') || child.textContent || ''`). -/
def legacyKeyOf (c : XNode) : String :=
  let a := ((getAttr c "value").getD "")
  if a ≠ "" then a else textContent c

mutual
/-- Embedding of `extractLegacyValue` (validator.js): decode one value
element by its tag name. -/
def extractLegacyValue : XNode → LVal
  | .text s => .s s
  | .elem tag attrs cs =>
    if tag = "unicode" ∨ tag = "string" ∨ tag = "bool" ∨ tag = "int" then
      .s (match getAttr (.elem tag attrs cs) "value" with
          | some v => v
          | none => textContent (.elem tag attrs cs))
    else if tag = "list" then .l (legacyListWalk cs)
    else if tag = "dictionary" then .d (applyAssigns (legacyAssignWalk cs))
    else if tag = "instance" then .d (applyAssigns (legacyInstSeek cs))
    else .s (textContent (.elem tag attrs cs))
/-- Embedding of `extractLegacyList`: decode every element child. -/
def legacyListWalk : XForest → LList
  | .nil => .nil
  | .cons c rest =>
    match c with
    | .text _ => legacyListWalk rest
    | .elem t a cs => .cons (extractLegacyValue (.elem t a cs)) (legacyListWalk rest)
/-- The key/value assignments of `extractLegacyDictionary`, in order. -/
def legacyAssignWalk : XForest → List (String × LVal)
  | .nil => []
  | .cons c rest =>
    match c with
    | .text _ => legacyAssignWalk rest
    | .elem t a cs =>
      if getAttr (.elem t a cs) "role" = some "key" ∧ legacyKeyOf (.elem t a cs) ≠ "" then
        legacyValueSeek (legacyKeyOf (.elem t a cs)) rest
      else legacyAssignWalk rest
/-- Pair a pending key with the next element sibling (the value node),
then continue the dictionary walk after it. -/
def legacyValueSeek (k : String) : XForest → List (String × LVal)
  | .nil => []
  | .cons v rest =>
    match v with
    | .text _ => legacyValueSeek k rest
    | .elem t a cs => (k, extractLegacyValue (.elem t a cs)) :: legacyAssignWalk rest
/-- Embedding of `extractLegacyInstance`: decode the first element child
named `dictionary`, or an empty object. -/
def legacyInstSeek : XForest → List (String × LVal)
  | .nil => []
  | .cons c rest =>
    match c with
    | .text _ => legacyInstSeek rest
    | .elem t _ cs => if t = "dictionary" then legacyAssignWalk cs else legacyInstSeek rest
end

/-- Legacy metadata object: `properties` may hold structured values,
`resources` stays a flat string map. -/
structure LMeta where
  properties : LDict
  resources : List (String × String)
deriving DecidableEq

/-- Embedding of `findFirstChildByLocalName` (validator.js). -/
def findFirstChildByLocalName (n : XNode) (nm : String) : Option XNode :=
  (elemChildren n).find? (fun c => xtag c = nm)

/-- The children forest of a node. -/
def xforest : XNode → XForest
  | .elem _ _ cs => cs
  | .text _ => .nil

/-- Embedding of `extractLegacyMetadata` (validator.js).  With no root
element the result is `null`; with no top-level `dictionary` child the
metadata stays empty (the `version`/`class` copying is skipped by the
early return); otherwise the dictionary is decoded and non-empty
`version` and `class` root attributes are copied under synthetic keys. -/
def extractLegacyMetadata (d : XMLDocument) : Option LMeta :=
  match d.documentElement with
  | none => none
  | some root =>
    match findFirstChildByLocalName root "dictionary" with
    | none => some ⟨.nil, []⟩
    | some td =>
      let props := applyAssigns (legacyAssignWalk (xforest td))
      let props :=
        match getAttr root "version" with
        | some v => if v ≠ "" then dictSet props "legacy_manifest_version" (.s v) else props
        | none => props
      let props :=
        match getAttr root "class" with
        | some c => if c ≠ "" then dictSet props "legacy_manifest_class" (.s c) else props
        | none => props
      some ⟨props, []⟩

/-! ### Legacy metadata normalizer -/

/-- One conditional copy of `normalizeLegacyMetadata`:
`if (properties[legacyKey] && !properties[modernKey]) properties[modernKey] = properties[legacyKey]`. -/
def copyIfAbsent (props : LDict) (legacyKey modernKey : String) : LDict :=
  if truthyO (dictGet props legacyKey) && !truthyO (dictGet props modernKey) then
    dictSet props modernKey ((dictGet props legacyKey).getD (.s ""))
  else props

/-- The fixed legacy-to-modern key mapping, in the source's order. -/
def legacyKeyPairs : List (String × String) :=
  [("_title", "pp_title"), ("_author", "pp_author"), ("_lang", "pp_lang"),
   ("_description", "pp_description"), ("_newlicense", "license")]

/-- Embedding of `normalizeLegacyMetadata` (validator.js). -/
def normalizeLegacyMetadata (m : Option LMeta) : Option LMeta :=
  match m with
  | none => none
  | some md =>
    let props := md.properties
    let props := copyIfAbsent props "_title" "pp_title"
    let props := copyIfAbsent props "_author" "pp_author"
    let props := copyIfAbsent props "_lang" "pp_lang"
    let props := copyIfAbsent props "_description" "pp_description"
    let props := copyIfAbsent props "_newlicense" "license"
    some ⟨props, md.resources⟩

/-- Fixture for C5: a modern key present with an empty (falsy) value next
to a truthy legacy key. -/
def c5Meta : LMeta := ⟨.cons "pp_title" (.s "") (.cons "_title" (.s "B") .nil), []⟩

/-- Fixture for C5 (witness): modern key already truthy next to a truthy
legacy key — the spec's own `{pp_title: "A", _title: "B"}` example. -/
def c5KeepMeta : LMeta :=
  ⟨.cons "pp_title" (.s "A") (.cons "_title" (.s "B") .nil), [("logo", "img.png")]⟩

/-- Fixture for C6 (counterexample): a legacy root carrying a `version`
attribute but no `dictionary` child. -/
def c6BadDoc : XMLDocument := ⟨some (.elem "oldformat" [("version", "0.3")] .nil)⟩

/-- Fixture for C6 (witness): the top-level dictionary. -/
def c6Dict : XNode :=
  .elem "dictionary" [] (.ofList
    [.elem "string" [("role", "key"), ("value", "_title")] .nil,
     .elem "unicode" [("value", "My Course")] .nil])

/-- Fixture for C6 (witness): a legacy root (not named `ode`) with
`version`/`class` attributes and a nested dictionary declaring `_title`. -/
def c6Root : XNode :=
  .elem "legacyproject" [("version", "0.3"), ("class", "exe.engine.package.Package")]
    (.ofList [c6Dict])

/-- Fixture document for C6 (witness). -/
def c6Doc : XMLDocument := ⟨some c6Root⟩

/-- The metadata value `extractLegacyMetadata` computes on `c6Doc`. -/
def c6ExpectedMeta : LMeta :=
  ⟨.cons "_title" (.s "My Course")
    (.cons "legacy_manifest_version" (.s "0.3")
      (.cons "legacy_manifest_class" (.s "exe.engine.package.Package") .nil)), []⟩

/-! ### Renderer: flat page records (renderer.js) -/

/-- A flat page record as produced by `parseModernPages` /
`parseLegacyPages`.  `order` and `index` are optional so that
`sortAscending`'s `?? 0` defaults are modelled faithfully for arbitrary
inputs of the hierarchy assembly (both extractors always set them). -/
structure FlatPage where
  id : String
  title : String
  htmlContent : String
  parentId : String
  order : Option Int
  index : Option Nat
deriving DecidableEq, Inhabited

mutual
/-- Model of JS `String(value)` for decoded legacy values: arrays join
their stringified items with commas, plain objects print as
`[object Object]`. -/
def jsToString : LVal → String
  | .s v => v
  | .l vs => jsToStringL vs
  | .d _ => "[object Object]"
def jsToStringL : LList → String
  | .nil => ""
  | .cons v rest =>
    jsToString v ++ (match rest with | .nil => "" | .cons _ _ => "," ++ jsToStringL rest)
end

/-- Embedding of `getFirstText` (renderer.js): for each tag name in order,
look at the first matching descendant; return its trimmed text if the raw
and trimmed text are both non-empty, else try the next name; `""` if no
name yields text. -/
def getFirstText (n : XNode) (names : List String) : String :=
  match names with
  | [] => ""
  | nm :: rest =>
    match descElems n nm with
    | [] => getFirstText n rest
    | m :: _ =>
      if textContent m ≠ "" then
        let t := jsTrim (textContent m)
        if t ≠ "" then t else getFirstText n rest
      else getFirstText n rest

/-- Embedding of `coerceNumber` (renderer.js) on the string values
`getFirstText` produces: `""` and non-numeric strings give the fallback. -/
def coerceNumber (s : String) (fallback : Int) : Int :=
  if s = "" then fallback
  else match parseIntJS s with
       | some n => n
       | none => fallback

/-- `coerceNumber` on a possibly-absent decoded legacy value
(`null`/`undefined`/`''` give the fallback; other values are stringified
and fed to `parseInt`). -/
def coerceNumberL (v : Option LVal) (fallback : Int) : Int :=
  match v with
  | none => fallback
  | some (.s "") => fallback
  | some w =>
    match parseIntJS (jsToString w) with
    | some n => n
    | none => fallback

/-- Embedding of `extractHtmlFromModernNavigation` (renderer.js). -/
def extractHtmlFromModernNavigation (nav : XNode) : String :=
  joinSep "\n\n"
    (((descElems nav "htmlView").map (fun m => jsTrim (textContent m))).filter (fun s => s ≠ ""))

/-- The alternative parent-reference field names of `parseModernPages`. -/
def parentFieldNames : List String :=
  ["odeNavStructureParent", "odeNavStructureParentId", "odeNavParentStructure",
   "odeNavParent", "odeParentId", "odeParentPageId", "parentPageId"]

/-- Embedding of `parseModernPages` (renderer.js).  The early return on an
empty node list coincides with mapping over the empty list. -/
def parseModernPages (d : XMLDocument) : List FlatPage :=
  (withIdx 0 (docElems d "odeNavStructure")).map (fun p =>
    let navNode := p.2
    let idx : Nat := p.1
    let id0 := getFirstText navNode ["odePageId"]
    let id := if id0 ≠ "" then id0 else "page-" ++ toString (idx + 1)
    let t0 := getFirstText navNode ["pageName"]
    let title := if t0 ≠ "" then t0 else if id ≠ "" then id else "Untitled page"
    let parentId := getFirstText navNode parentFieldNames
    let order :=
      coerceNumber (getFirstText navNode ["odeNavStructureSyncOrder", "odeNavStructureOrder"])
        (idx : Int)
    { id := id, title := title,
      htmlContent := extractHtmlFromModernNavigation navNode,
      parentId := if parentId ≠ "" ∧ parentId ≠ id then parentId else "",
      order := some order, index := some idx })

/-! ### Renderer: legacy page walk (`parseLegacyChildren`) -/

/-- The items of a decoded legacy list as a Lean list. -/
def LList.toList : LList → List LVal
  | .nil => []
  | .cons v rest => v :: LList.toList rest

/-- Embedding of `ensureArray` (renderer.js): falsy values give `[]`,
arrays pass through, anything else is wrapped. -/
def ensureArrL (v : Option LVal) : List LVal :=
  match v with
  | none => []
  | some (.s "") => []
  | some (.l vs) => vs.toList
  | some w => [w]

/-- JS property access `entry[key]` on a decoded legacy value (only plain
objects have properties). -/
def lgetF (e : LVal) (k : String) : Option LVal :=
  match e with
  | .d es => dictGet es k
  | _ => none

/-- First truthy value of a JS `||` chain of property reads. -/
def firstTruthy : List (Option LVal) → Option LVal
  | [] => none
  | v :: rest => if truthyO v then v else firstTruthy rest

/-- Embedding of `extractHtmlFromLegacyNode` (renderer.js). -/
def extractHtmlFromLegacyNode (v : LVal) : String :=
  match v with
  | .d es =>
    joinSep "\n\n" (["_content", "_body", "_text", "_html"].filterMap (fun k =>
      match dictGet es k with
      | some (.s s) => if jsTrim s ≠ "" then some (jsTrim s) else none
      | _ => none))
  | _ => ""

/-- `trimText(entry._id || entry.id || entry.identifier || entry.uid || '')`. -/
def legacyIdOf (e : LVal) : String :=
  match firstTruthy [lgetF e "_id", lgetF e "id", lgetF e "identifier", lgetF e "uid"] with
  | some w => jsTrim (jsToString w)
  | none => ""

/-- `trimText(entry._title || entry.title || entry.name || safeId || 'Untitled page')`. -/
def legacyTitleOf (e : LVal) (safeId : String) : String :=
  match firstTruthy [lgetF e "_title", lgetF e "title", lgetF e "name"] with
  | some w => jsTrim (jsToString w)
  | none => if safeId ≠ "" then jsTrim safeId else jsTrim "Untitled page"

mutual
/-- Sizes of decoded legacy values, used only to supply recursion fuel. -/
def lvalSize : LVal → Nat
  | .s _ => 1
  | .l vs => 1 + llistSize vs
  | .d es => 1 + ldictSize es
def llistSize : LList → Nat
  | .nil => 1
  | .cons v rest => 1 + lvalSize v + llistSize rest
def ldictSize : LDict → Nat
  | .nil => 1
  | .cons _ v rest => 1 + lvalSize v + ldictSize rest
end

/-- Embedding of the `parseLegacyChildren` recursion (renderer.js),
processing one entry list with its `forEach` index and threading the
accumulator.  The walk is driven by explicit fuel: every step (skipping an
entry, emitting a page, or descending into `_children`) consumes one unit,
and each processed entry is a distinct node of the finite input value, so
any fuel above twice the input's size never runs out; `parseLegacyPages`
supplies such a bound, making this equal to the unbounded source
recursion. -/
def walkEntriesF : Nat → List LVal → Nat → String → Int → List FlatPage → List FlatPage
  | 0, _, _, _, _, acc => acc
  | _ + 1, [], _, _, _, acc => acc
  | fuel + 1, entry :: rest, idx, parentId, orderBase, acc =>
    match entry with
    | .s _ => walkEntriesF fuel rest (idx + 1) parentId orderBase acc
    | e =>
      let id := legacyIdOf e
      let safeId :=
        if id ≠ "" then id
        else (if parentId ≠ "" then parentId else "legacy") ++ "-" ++ toString (acc.length + 1)
      let t0 := legacyTitleOf e safeId
      let title := if t0 ≠ "" then t0 else if safeId ≠ "" then safeId else "Untitled page"
      let ideviceHtml :=
        ((ensureArrL (lgetF e "_idevices")).map extractHtmlFromLegacyNode).filter (fun s => s ≠ "")
      let combinedHtml :=
        joinSep "\n\n"
          ((if ideviceHtml ≠ [] then ideviceHtml else [extractHtmlFromLegacyNode e]).filter
            (fun s => s ≠ ""))
      let page : FlatPage :=
        { id := safeId, title := title, htmlContent := combinedHtml,
          parentId := if parentId ≠ "" ∧ parentId ≠ safeId then parentId else "",
          order := some (coerceNumberL (lgetF e "_order") (orderBase + (idx : Int))),
          index := some acc.length }
      let acc2 := acc ++ [page]
      let acc3 :=
        if truthyO (lgetF e "_children") then
          walkEntriesF fuel (ensureArrL (lgetF e "_children")) 0 safeId
            (orderBase + (idx : Int) + 1) acc2
        else acc2
      walkEntriesF fuel rest (idx + 1) parentId orderBase acc3

/-- Embedding of `parseLegacyPages` (renderer.js): decode the legacy
metadata and walk `properties._children`. -/
def parseLegacyPages (d : XMLDocument) : List FlatPage :=
  match extractLegacyMetadata d with
  | none => []
  | some m =>
    let children := dictGet m.properties "_children"
    walkEntriesF (2 * (match children with | some v => lvalSize v | none => 0) + 2)
      (ensureArrL children) 0 "" 0 []

/-! ### Renderer: hierarchy assembly (`buildHierarchy`) -/

/-- The page at a position (positions are always in range where used). -/
def pageAt (ps : List FlatPage) (j : Nat) : FlatPage := ps.getD j default

/-- Position resolved by the `byId` map for a parent id: `byId.set` is
last-write-wins over pages with truthy ids, so lookup finds the last such
position. -/
def findLastIdx (ps : List FlatPage) (pid : String) : Option Nat :=
  ((List.range ps.length).filter
    (fun i => (pageAt ps i).id ≠ "" ∧ (pageAt ps i).id = pid)).getLast?

/-- The attachment decision of the assembly loop for the page at `j`:
`some i` when `parentId && byId.has(parentId) && parentId !== page.id`
resolves the parent to position `i`, `none` when the page becomes a root. -/
def resolvedParent (ps : List FlatPage) (j : Nat) : Option Nat :=
  let p := pageAt ps j
  if p.parentId ≠ "" ∧ p.parentId ≠ p.id then findLastIdx ps p.parentId else none

/-- State of the assembly loop: accumulated roots and per-parent children
lists (both in push order). -/
structure PlaceState where
  roots : List Nat
  kids : Nat → List Nat

/-- One iteration of the `pages.forEach` assembly loop. -/
def placeStep (ps : List FlatPage) (st : PlaceState) (j : Nat) : PlaceState :=
  match resolvedParent ps j with
  | some i => { st with kids := fun k => if k = i then st.kids k ++ [j] else st.kids k }
  | none => { st with roots := st.roots ++ [j] }

/-- The whole assembly loop of `buildHierarchy`. -/
def placePages (ps : List FlatPage) : PlaceState :=
  (List.range ps.length).foldl (placeStep ps) ⟨[], fun _ => []⟩

mutual
/-- A mutable page node of `buildHierarchy` (a flat record plus its
children array). -/
inductive HNode where
  | node (page : FlatPage) (children : HForest)
  deriving DecidableEq
inductive HForest where
  | nil
  | cons (n : HNode) (rest : HForest)
  deriving DecidableEq
end

/-- Build a children forest from a list. -/
def HForest.ofList : List HNode → HForest
  | [] => .nil
  | n :: rest => .cons n (HForest.ofList rest)

/-- The children of a forest as a list. -/
def HForest.toList : HForest → List HNode
  | .nil => []
  | .cons n rest => n :: HForest.toList rest

/-- The record carried by a node. -/
def hpage : HNode → FlatPage
  | .node p _ => p

/-- Expansion of the linked node structure the assembly loop creates:
the subtree reachable from position `j`, children in push order.  Fuel
bounds the depth; `buildHierarchy` passes the page count, which dominates
the depth of every chain that reaches a root, so the returned roots are
exactly the linked structures of the source. -/
def buildTree (ps : List FlatPage) : Nat → Nat → HNode
  | 0, j => .node (pageAt ps j) .nil
  | fuel + 1, j =>
    .node (pageAt ps j) (HForest.ofList (((placePages ps).kids j).map (buildTree ps fuel)))

/-- The root forest assembled by `buildHierarchy` before sorting. -/
def assembleForest (ps : List FlatPage) : List HNode :=
  (placePages ps).roots.map (buildTree ps ps.length)

/-- The total preorder realised by the `sortAscending` comparator:
`a` may precede `b` iff `sortAscending(a, b) <= 0`, i.e. lexicographic on
`(order ?? 0, index ?? 0)`. -/
def nodeLe (a b : HNode) : Prop :=
  (hpage a).order.getD 0 < (hpage b).order.getD 0 ∨
  ((hpage a).order.getD 0 = (hpage b).order.getD 0 ∧
    (hpage a).index.getD 0 ≤ (hpage b).index.getD 0)

instance : DecidableRel nodeLe := fun a b => by unfold nodeLe; infer_instance

/-- Embedding of `sortHierarchy` (renderer.js): sort the sibling group
with the stable comparator sort (`Array.prototype.sort` is stable and the
comparator is induced by a total preorder, so its output is the stable
insertion sort), then recurse into children groups with more than one
member.  Fuel bounds the recursion depth; `buildHierarchy` passes a bound
dominating the depth of its input forest. -/
def sortHierarchyFuel : Nat → List HNode → List HNode
  | 0, ns => ns
  | fuel + 1, ns =>
    (List.insertionSort nodeLe ns).map (fun n =>
      match n with
      | .node p cs =>
        .node p (match cs with
          | .cons _ (.cons _ _) => HForest.ofList (sortHierarchyFuel fuel cs.toList)
          | _ => cs))

mutual
/-- A finished tree node: `assignLevels` has stamped `level` and
`cleanNode` has removed `parentId` and `index`. -/
inductive PageNode where
  | node (id title htmlContent : String) (order : Option Int) (level : Nat) (children : PForest)
  deriving DecidableEq
inductive PForest where
  | nil
  | cons (n : PageNode) (rest : PForest)
  deriving DecidableEq
end

mutual
/-- `assignLevels` plus `cleanNode` in one top-down pass (the node copy at
the head of `buildHierarchy` maps `htmlContent || ''`, the identity on the
strings carried here). -/
def finalizeNode : HNode → Nat → PageNode
  | .node p cs, lvl => .node p.id p.title p.htmlContent p.order lvl (finalizeForest cs (lvl + 1))
def finalizeForest : HForest → Nat → PForest
  | .nil, _ => .nil
  | .cons n rest, lvl => .cons (finalizeNode n lvl) (finalizeForest rest lvl)
end

/-- Embedding of `buildHierarchy` (renderer.js). -/
def buildHierarchy (ps : List FlatPage) : List PageNode :=
  (sortHierarchyFuel (ps.length + 1) (assembleForest ps)).map (fun r => finalizeNode r 0)

mutual
/-- Number of nodes in a finished tree. -/
def countPN : PageNode → Nat
  | .node _ _ _ _ _ cs => 1 + countPF cs
def countPF : PForest → Nat
  | .nil => 0
  | .cons n rest => countPN n + countPF rest
end

/-- Number of nodes of a finished forest, across all levels. -/
def totalNodes (l : List PageNode) : Nat := (l.map countPN).sum

mutual
/-- Number of nodes in an assembled (pre-finalize) tree. -/
def countHN : HNode → Nat
  | .node _ cs => 1 + countHF cs
def countHF : HForest → Nat
  | .nil => 0
  | .cons n rest => countHN n + countHF rest
end

/-- The positions occurring in `buildTree ps fuel j`, in pre-order (used
to count the nodes of the assembled forest). -/
def collectTree (ps : List FlatPage) : Nat → Nat → List Nat
  | 0, j => [j]
  | fuel + 1, j => j :: (((placePages ps).kids j).map (collectTree ps fuel)).flatten

/-- Iterated parent resolution: the k-th ancestor position of `j`. -/
def iterParent (ps : List FlatPage) : Nat → Nat → Option Nat
  | 0, j => some j
  | k + 1, j => (iterParent ps k j).bind (resolvedParent ps)

/-- The parent declarations are acyclic: every chain of parent references
dies out (reaches a root) within `length + 1` steps — equivalently, no
chain of `resolvedParent` steps loops. -/
def acyclicParents (ps : List FlatPage) : Prop :=
  ∀ j < ps.length, iterParent ps (ps.length + 1) j = none

/-- Whether the k-th ancestor of `j` exists and is a root (a position in
range whose own parent resolution is `none`). -/
def landsOnRoot (ps : List FlatPage) (j k : Nat) : Bool :=
  match iterParent ps k j with
  | none => false
  | some r => decide (r < ps.length) && (resolvedParent ps r).isNone

/-! ### Renderer: `generateElpViewData` -/

/-- The dialect dispatch of `generateElpViewData`: modern extraction when
the root's local name is `ode` (case-insensitively), legacy otherwise. -/
def flatExtract (d : XMLDocument) : List FlatPage :=
  match d.documentElement with
  | none => []
  | some root =>
    if lowerStr (xtag root) = "ode" then parseModernPages d else parseLegacyPages d

/-- Embedding of `generateElpViewData` (renderer.js).  The argument is
`none` for a `null`/`undefined` document. -/
def generateElpViewData (doc : Option XMLDocument) : List PageNode :=
  match doc with
  | none => []
  | some d =>
    match d.documentElement with
    | none => []
    | some _ =>
      let flatPages := flatExtract d
      if flatPages.isEmpty then [] else buildHierarchy flatPages

/-! ### Resource path extraction (validator.js)

`decodeURIComponent`, `encodeURI` and `JSON.parse` are platform built-ins.
The two URI helpers are modelled concretely on ASCII (percent-decoding and
percent-encoding as the spec describes; multi-byte UTF-8 assembly and the
malformed-escape exception are not modelled — no claim exercises them).
`JSON.parse` is abstracted as a `String → Option JVal` parameter, `none`
modelling the exception that triggers the regex fallback. -/

/-- Value of a hex digit, if any. -/
def hexVal (c : Char) : Option Nat :=
  if '0' ≤ c ∧ c ≤ '9' then some (c.toNat - 48)
  else if 'A' ≤ c ∧ c ≤ 'F' then some (c.toNat - 55)
  else if 'a' ≤ c ∧ c ≤ 'f' then some (c.toNat - 87)
  else none

/-- Model of `decodeURIComponent` (ASCII): each `%XX` escape becomes the
character with that code; anything else passes through. -/
def percentDecodeL : List Char → List Char
  | [] => []
  | '%' :: a :: b :: rest =>
    (match hexVal a, hexVal b with
     | some ha, some hb => Char.ofNat (16 * ha + hb) :: percentDecodeL rest
     | _, _ => '%' :: percentDecodeL (a :: b :: rest))
  | c :: rest => c :: percentDecodeL rest

/-- Characters `encodeURI` leaves unescaped. -/
def uriUnreserved (c : Char) : Bool :=
  ('A' ≤ c ∧ c ≤ 'Z') ∨ ('a' ≤ c ∧ c ≤ 'z') ∨ ('0' ≤ c ∧ c ≤ '9') ∨
    (";,/?:@&=+$-_.!~*'()#".data.contains c)

/-- Upper-case hex digit. -/
def hexDigit (n : Nat) : Char :=
  if n < 10 then Char.ofNat (48 + n) else Char.ofNat (55 + n)

/-- Model of `encodeURI` (ASCII). -/
def encodeURI (s : String) : String :=
  ⟨(s.data.map (fun c =>
    if uriUnreserved c then [c] else ['%', hexDigit (c.toNat / 16), hexDigit (c.toNat % 16)])).flatten⟩

/-- Embedding of `normalizeResourcePath` (validator.js): trim, percent-
decode, strip one leading `./`, strip one leading `/`, backslashes to
forward slashes. -/
def normalizeResourcePath (p : String) : String :=
  let t := percentDecodeL (jsTrim p).data
  let t := match t with | '.' :: '/' :: r => r | _ => t
  let t := match t with | '/' :: r => r | _ => t
  ⟨t.map (fun c => if c = '\\' then '/' else c)⟩

/-- Quote characters of the attribute regex (double and single quote). -/
def isQuoteC (c : Char) : Bool := c.toNat = 34 ∨ c.toNat = 39

/-- Case-insensitive literal match returning the rest of the input. -/
def matchPrefixCI : List Char → List Char → Option (List Char)
  | [], cs => some cs
  | _ :: _, [] => none
  | p :: ps, c :: cs => if lowerChar c = lowerChar p then matchPrefixCI ps cs else none

/-- One attempt of `/(?:src|href)=["']([^"']+)["']/i` at the current
position: the captured value and the rest of the input after the match. -/
def matchAttrAt (cs : List Char) : Option (List Char × List Char) :=
  match (match matchPrefixCI "src".data cs with
         | some r => some r
         | none => matchPrefixCI "href".data cs) with
  | none => none
  | some r1 =>
    match r1 with
    | '=' :: q :: r3 =>
      if isQuoteC q then
        let run := r3.takeWhile (fun c => !isQuoteC c)
        let r4 := r3.dropWhile (fun c => !isQuoteC c)
        if run.isEmpty then none
        else
          match r4 with
          | c :: r5 => if isQuoteC c then some (run, r5) else none
          | [] => none
      else none
    | _ => none

/-- The global `exec` loop over the attribute regex: all captured values in
order, resuming after each whole match.  Fuel (one unit per position
advanced or match consumed, and every step consumes at least one input
character) starting at the input length never runs out. -/
def scanAttrValues : Nat → List Char → List String
  | 0, _ => []
  | _ + 1, [] => []
  | fuel + 1, c :: rest =>
    match matchAttrAt (c :: rest) with
    | some (v, r) => (⟨v⟩ : String) :: scanAttrValues fuel r
    | none => scanAttrValues fuel rest

/-- All values of `src`/`href` attributes found in a text. -/
def scanAttrs (s : String) : List String := scanAttrValues s.data.length s.data

/-- Case-insensitive prefix test. -/
def startsWithCI : List Char → List Char → Bool
  | [], _ => true
  | _ :: _, [] => false
  | p :: ps, c :: cs => lowerChar c = lowerChar p && startsWithCI ps cs

/-- Substring search for `content/` or `custom/` (case-insensitive),
modelling `RESOURCE_FOLDER_REGEX.test`. -/
def containsFolderSeg : List Char → Bool
  | [] => false
  | c :: rest =>
    startsWithCI "content/".data (c :: rest) || startsWithCI "custom/".data (c :: rest) ||
      containsFolderSeg rest

/-- `RESOURCE_FOLDER_REGEX.test(value)`. -/
def resourceFolderTest (s : String) : Bool := containsFolderSeg s.data

/-- JS `Set.add` on an insertion-ordered duplicate-free list. -/
def addUnique (l : List String) (x : String) : List String :=
  if x ∈ l then l else l ++ [x]

mutual
/-- A decoded JSON value (the numeric payload is never inspected by the
walk, which only collects strings). -/
inductive JVal where
  | null
  | bool (b : Bool)
  | num (n : Int)
  | str (s : String)
  | arr (items : JArr)
  | obj (fields : JObj)
  deriving DecidableEq
inductive JArr where
  | nil
  | cons (v : JVal) (rest : JArr)
  deriving DecidableEq
inductive JObj where
  | nil
  | cons (k : String) (v : JVal) (rest : JObj)
  deriving DecidableEq
end

mutual
/-- Embedding of `collectPathsFromJson` (validator.js): walk every string
value through nested arrays and objects, collecting folder-matching paths
(normalized) into the set. -/
def collectPathsFromJson : JVal → List String → List String
  | .null, acc => acc
  | .bool _, acc => acc
  | .num _, acc => acc
  | .str s, acc =>
    if s ≠ "" ∧ resourceFolderTest s then addUnique acc (normalizeResourcePath s) else acc
  | .arr items, acc => collectPathsFromJsonArr items acc
  | .obj fields, acc => collectPathsFromJsonObj fields acc
def collectPathsFromJsonArr : JArr → List String → List String
  | .nil, acc => acc
  | .cons v rest, acc => collectPathsFromJsonArr rest (collectPathsFromJson v acc)
def collectPathsFromJsonObj : JObj → List String → List String
  | .nil, acc => acc
  | .cons _ v rest, acc => collectPathsFromJsonObj rest (collectPathsFromJson v acc)
end

/-- The regex branch shared by the `htmlView` scan and the `jsonProperties`
fallback: add each folder-matching attribute value, normalized, to the set. -/
def regexScanInto (text : String) (acc : List String) : List String :=
  (scanAttrs text).foldl
    (fun a v => if resourceFolderTest v then addUnique a (normalizeResourcePath v) else a) acc

/-- Embedding of `extractResourcePaths` (validator.js), parameterized by
the platform JSON parser. -/
def extractResourcePaths (jsonParse : String → Option JVal) (d : XMLDocument) : List String :=
  let acc := (docElems d "htmlView").foldl (fun a node => regexScanInto (textContent node) a) []
  (docElems d "jsonProperties").foldl (fun a node =>
    match jsonParse (textContent node) with
    | some j => collectPathsFromJson j a
    | none => regexScanInto (textContent node) a) acc

/-- Embedding of `findMissingResources` (validator.js); the container is
abstracted to its `zip.file` membership test. -/
def findMissingResources (paths : List String) (zipHas : String → Bool) : List String :=
  if paths.isEmpty then []
  else
    paths.foldl (fun missing p =>
      let normalized := normalizeResourcePath p
      if zipHas normalized then missing
      else if zipHas (encodeURI normalized) then missing
      else missing ++ [p]) []

/-- Fixture for C8: a document whose `htmlView` carries
`<img src='content/x.png'>`. -/
def c8Doc : XMLDocument :=
  ⟨some (.elem "ode" []
    (.cons (.elem "htmlView" [] (.cons (.text "<img src='content/x.png'>") .nil)) .nil))⟩

/-! ### Renderer fixtures -/

/-- Fixture for C1: a root, a single child `c` of the root, and two
children of `c` whose explicit orders are out of document order. -/
def c1Pages : List FlatPage :=
  [⟨"r", "R", "", "", some 0, some 0⟩,
   ⟨"c", "C", "", "r", some 0, some 1⟩,
   ⟨"a", "A", "", "c", some 3, some 2⟩,
   ⟨"b", "B", "", "c", some 1, some 3⟩]

/-- What `buildHierarchy` returns on `c1Pages`: the group under `c` keeps
push order `[order=3, order=1]` because `sortHierarchy` never descends
through the singleton group `[c]`. -/
def c1Expected : List PageNode :=
  [.node "r" "R" "" (some 0) 0 (.cons
     (.node "c" "C" "" (some 0) 1 (.cons
        (.node "a" "A" "" (some 3) 2 .nil)
        (.cons (.node "b" "B" "" (some 1) 2 .nil) .nil)))
     .nil)]

/-- The children of a finished node. -/
def pnChildren : PageNode → PForest
  | .node _ _ _ _ _ cs => cs

/-- The `order` values of a sibling group, in listed order. -/
def pfOrders : PForest → List (Option Int)
  | .nil => []
  | .cons (.node _ _ _ o _ _) rest => o :: pfOrders rest

/-- Whether a sibling group's `order` values are ascending (with the
comparator's `?? 0` default); refuting this refutes ascending
`(order, index)` order. -/
def ordersAscending : List (Option Int) → Bool
  | [] => true
  | [_] => true
  | a :: b :: rest => decide (a.getD 0 ≤ b.getD 0) && ordersAscending (b :: rest)

/-- Fixture for C2 (witness): a dangling parent reference, a resolvable
one, and a self-parent. -/
def c2Pages : List FlatPage :=
  [⟨"x", "X", "", "nope", some 0, some 0⟩,
   ⟨"y", "Y", "", "x", some 1, some 1⟩,
   ⟨"z", "Z", "", "z", some 2, some 2⟩]

/-- Fixture for C4 (counterexample): a well-formed modern document whose
two records declare distinct ids `a`, `b` and each other as parent. -/
def c4CycleDoc : XMLDocument :=
  ⟨some (.elem "ode" [] (.ofList [
    .elem "odeNavStructures" [] (.ofList [
      .elem "odeNavStructure" [] (.ofList [
        .elem "odePageId" [] (.ofList [.text "a"]),
        .elem "odeNavStructureParent" [] (.ofList [.text "b"])]),
      .elem "odeNavStructure" [] (.ofList [
        .elem "odePageId" [] (.ofList [.text "b"]),
        .elem "odeNavStructureParent" [] (.ofList [.text "a"])])])]))⟩

/-- Fixture for C4 (witness): a minimal modern document with one page. -/
def c4OnePageDoc : XMLDocument :=
  ⟨some (.elem "ode" [] (.ofList [
    .elem "odeNavStructures" [] (.ofList [
      .elem "odeNavStructure" [] (.ofList [
        .elem "odePageId" [] (.ofList [.text "p1"]),
        .elem "pageName" [] (.ofList [.text "Start"])])])]))⟩

/-- Fixture for C10 (witness): a modern document with no page records. -/
def c10EmptyDoc : XMLDocument := ⟨some (.elem "ode" [] .nil)⟩

/-! ### Theorems -/

mutual
theorem length_filter_subtreeElems (n : XNode) (q : String) :
    ((subtreeElems n).filter (fun m => xtag m = q)).length = countTagN n q := by
  match n with
  | .text s => simp [subtreeElems, countTagN]
  | .elem t a cs =>
    simp only [subtreeElems, countTagN, List.filter]
    rcases h : decide (xtag (XNode.elem t a cs) = q) with _ | _
    · simp only [xtag, decide_eq_false_iff_not] at h
      simp [length_filter_subtreeElemsF cs q, if_neg h]
    · simp only [xtag, decide_eq_true_eq] at h
      simp [length_filter_subtreeElemsF cs q, if_pos h, Nat.add_comm]
theorem length_filter_subtreeElemsF (f : XForest) (q : String) :
    ((subtreeElemsF f).filter (fun m => xtag m = q)).length = countTagF f q := by
  match f with
  | .nil => simp [subtreeElemsF, countTagF]
  | .cons n rest =>
    simp [subtreeElemsF, countTagF, List.filter_append,
      length_filter_subtreeElems n q, length_filter_subtreeElemsF rest q]
end

theorem docElems_length (d : XMLDocument) (q : String) :
    (docElems d q).length = countTagDoc d q := by
  cases d with
  | mk root =>
    cases root with
    | none => simp [docElems, countTagDoc]
    | some r => simpa [docElems, countTagDoc] using length_filter_subtreeElems r q

/-- C9: on a document with zero `odeNavStructure` elements,
`checkPagePresence` returns a `warning` saying the project appears empty;
with `N ≥ 1` such elements it returns `success` with a message stating the
page count. -/
theorem checkPagePresence_spec (d : XMLDocument) :
    checkPagePresence d =
      if countTagDoc d "odeNavStructure" = 0 then
        ⟨"warning", "No <odeNavStructure> entries were found. The project appears to be empty."⟩
      else
        ⟨"success", "Found " ++ toString (countTagDoc d "odeNavStructure") ++ " page" ++
          (if countTagDoc d "odeNavStructure" = 1 then "" else "s") ++ "."⟩ := by
  show (if (docElems d "odeNavStructure").length = 0 then _ else _) = _
  rw [docElems_length d "odeNavStructure"]

/-- C7: a non-string payload or a payload whose parse produces a
`parsererror` element yields status `error` (and those are the only error
cases); no document is ever returned alongside an error; the error message
carries the parser-supplied detail when it is non-empty and the generic
not-well-formed message otherwise; a cleanly parsed string yields
`{status: success, document}`. -/
theorem parseContentXml_spec (domParse : String → XMLDocument) (payload : XmlPayload) :
    ((parseContentXml domParse payload).status = "error" ↔
      (payload = .notAString ∨
        ∃ s, payload = .ofString s ∧ (querySel (domParse s) "parsererror").isSome)) ∧
    ((parseContentXml domParse payload).status = "error" →
      (parseContentXml domParse payload).document = none) ∧
    (∀ s, payload = .ofString s → querySel (domParse s) "parsererror" = none →
      parseContentXml domParse payload = ⟨"success", "", some (domParse s)⟩) ∧
    (∀ s pe, payload = .ofString s → querySel (domParse s) "parsererror" = some pe →
      (parseContentXml domParse payload).status = "error" ∧
      (parseContentXml domParse payload).message =
        (if jsTrim (textContent pe) ≠ "" then
          "The XML document is not well-formed: " ++ jsTrim (textContent pe)
        else "The XML document is not well-formed.")) ∧
    (payload = .notAString →
      parseContentXml domParse payload = ⟨"error", "The provided XML payload is not a string.", none⟩) := by
  cases payload with
  | notAString =>
    refine ⟨by simp [parseContentXml], by simp [parseContentXml], ?_, ?_, by simp [parseContentXml]⟩
    · intro s hs; cases hs
    · intro s pe hs; cases hs
  | ofString s =>
    cases hq : querySel (domParse s) "parsererror" with
    | none =>
      refine ⟨?_, ?_, ?_, ?_, ?_⟩
      · simp only [parseContentXml, hq]
        constructor
        · intro h; exact absurd h (by decide)
        · rintro (h | ⟨s₂, hs₂, hsome⟩)
          · cases h
          · cases hs₂; rw [hq] at hsome; cases hsome
      · simp [parseContentXml, hq]
      · intro s₂ hs₂ _; cases hs₂; simp [parseContentXml, hq]
      · intro s₂ pe hs₂ hsome; cases hs₂; rw [hq] at hsome; cases hsome
      · intro h; cases h
    | some pe =>
      refine ⟨?_, ?_, ?_, ?_, ?_⟩
      · simp only [parseContentXml, hq]
        constructor
        · intro _; exact Or.inr ⟨s, rfl, by rw [hq]; rfl⟩
        · intro _
          by_cases hd : jsTrim (textContent pe) ≠ "" <;> simp [hd]
      · simp only [parseContentXml, hq]
        intro _
        by_cases hd : jsTrim (textContent pe) ≠ "" <;> simp [hd]
      · intro s₂ hs₂ hnone; cases hs₂; rw [hq] at hnone; cases hnone
      · intro s₂ pe₂ hs₂ hsome; cases hs₂; rw [hq] at hsome; cases hsome
        exact ⟨by simp only [parseContentXml, hq], by simp only [parseContentXml, hq]⟩
      · intro h; cases h

/-- Witness for C7: the theorem applied at the concrete parser `domParse0`
on a clean parse, a failed parse, and a non-string payload. -/
theorem parseContentXml_spec_witness :
    parseContentXml domParse0 (.ofString "<a/>") = ⟨"success", "", some ⟨some (.elem "a" [] .nil)⟩⟩ ∧
    (parseContentXml domParse0 (.ofString "nope")).status = "error" ∧
    (parseContentXml domParse0 (.ofString "nope")).message = "The XML document is not well-formed: boom" ∧
    (parseContentXml domParse0 (.ofString "nope")).document = none ∧
    parseContentXml domParse0 .notAString = ⟨"error", "The provided XML payload is not a string.", none⟩ := by
  have h1 := (parseContentXml_spec domParse0 (.ofString "<a/>")).2.2.1 "<a/>" rfl (by decide)
  have h2 := (parseContentXml_spec domParse0 (.ofString "nope")).2.2.2.1 "nope"
    (.elem "parsererror" [] (.cons (.text " boom ") .nil)) rfl (by decide)
  have h3 := (parseContentXml_spec domParse0 (.ofString "nope")).2.1
  have h4 := (parseContentXml_spec domParse0 .notAString).2.2.2.2 rfl
  refine ⟨?_, h2.1, ?_, h3 h2.1, h4⟩
  · simpa [domParse0] using h1
  · rw [h2.2]; decide

theorem ensureChildTags_ne_nil_iff (node : XNode) (reqs : List (List String)) :
    ensureChildTags node reqs ≠ [] ↔ missesRequired node reqs := by
  unfold ensureChildTags missesRequired
  rw [Ne, List.filterMap_eq_nil_iff]
  push_neg
  constructor
  · rintro ⟨tags, htags, hne⟩
    refine ⟨tags, htags, fun t ht => ?_⟩
    by_cases hany : tags.any (fun t => !(descElems node t).isEmpty) = true
    · rw [if_pos hany] at hne; exact absurd rfl hne
    · rw [List.any_eq_true] at hany
      push_neg at hany
      have := hany t ht
      simp only [Bool.not_eq_true, Bool.not_eq_false'] at this
      exact List.isEmpty_iff.mp this
  · rintro ⟨tags, htags, hall⟩
    refine ⟨tags, htags, ?_⟩
    have hany : ¬ tags.any (fun t => !(descElems node t).isEmpty) = true := by
      rw [List.any_eq_true]
      push_neg
      intro t ht
      simp [hall t ht]
    rw [if_neg hany]
    simp

theorem mem_withIdx_of_getQ {α : Type} (l : List α) (k i : Nat) (a : α)
    (h : l.get? i = some a) : (k + i, a) ∈ withIdx k l := by
  induction l generalizing k i with
  | nil => simp at h
  | cons x rest ih =>
    cases i with
    | zero =>
      simp only [List.get?] at h
      cases h
      simp [withIdx]
    | succ j =>
      simp only [List.get?] at h
      have := ih (k + 1) j h
      have harith : k + 1 + j = k + (j + 1) := by omega
      rw [harith] at this
      simp [withIdx, this]

theorem snd_mem_of_mem_withIdx {α : Type} :
    ∀ (l : List α) (k : Nat) (p : Nat × α), p ∈ withIdx k l → p.2 ∈ l := by
  intro l
  induction l with
  | nil => intro k p h; simp [withIdx] at h
  | cons x rest ih =>
    intro k p h
    simp only [withIdx, List.mem_cons] at h
    rcases h with h | h
    · subst h; simp
    · exact List.mem_cons_of_mem _ (ih (k + 1) p h)

theorem exists_withIdx_of_mem {α : Type} (l : List α) (a : α) (h : a ∈ l) :
    ∃ i, (i, a) ∈ withIdx 0 l := by
  obtain ⟨n, hn⟩ := List.mem_iff_get?.mp h
  exact ⟨n, by simpa using mem_withIdx_of_getQ l 0 n a hn⟩

theorem issueLine_of_ne (label : String) (missing : List String) (h : missing ≠ []) :
    issueLine label missing = [label ++ joinSep ", " missing] := by
  unfold issueLine
  rw [if_neg (by simpa [List.isEmpty_iff] using h)]

theorem of_mem_issueLine (label : String) (missing : List String) (s : String)
    (h : s ∈ issueLine label missing) : missing ≠ [] ∧ s = label ++ joinSep ", " missing := by
  unfold issueLine at h
  by_cases he : missing.isEmpty = true
  · rw [if_pos he] at h; simp at h
  · rw [if_neg he] at h
    refine ⟨fun hc => he (by simp [hc]), by simpa using h⟩

theorem mem_integrityIssues_iff (d : XMLDocument) (s : String) :
    s ∈ integrityIssues d ↔
      ∃ p ∈ withIdx 0 (docElems d "odeNavStructure"),
        s ∈ navIssue p.1 p.2 ∨
        ∃ b ∈ withIdx 0 (descElems p.2 "odePagStructure"),
          s ∈ blockIssue p.1 b.1 b.2 ∨
          ∃ c ∈ withIdx 0 (descElems b.2 "odeComponent"),
            s ∈ componentIssue p.1 b.1 c.1 c.2 := by
  unfold integrityIssues
  constructor
  · intro hmem
    obtain ⟨l, hl, hs⟩ := List.mem_flatten.mp hmem
    obtain ⟨p, hp, rfl⟩ := List.mem_map.mp hl
    rcases List.mem_append.mp hs with hs | hs
    · exact ⟨p, hp, Or.inl hs⟩
    · obtain ⟨l₂, hl₂, hs⟩ := List.mem_flatten.mp hs
      obtain ⟨b, hb, rfl⟩ := List.mem_map.mp hl₂
      rcases List.mem_append.mp hs with hs | hs
      · exact ⟨p, hp, Or.inr ⟨b, hb, Or.inl hs⟩⟩
      · obtain ⟨l₃, hl₃, hs⟩ := List.mem_flatten.mp hs
        obtain ⟨c, hc, rfl⟩ := List.mem_map.mp hl₃
        exact ⟨p, hp, Or.inr ⟨b, hb, Or.inr ⟨c, hc, hs⟩⟩⟩
  · rintro ⟨p, hp, hs | ⟨b, hb, hs | ⟨c, hc, hs⟩⟩⟩
    · exact List.mem_flatten.mpr ⟨_, List.mem_map.mpr ⟨p, hp, rfl⟩,
        List.mem_append.mpr (Or.inl hs)⟩
    · refine List.mem_flatten.mpr ⟨_, List.mem_map.mpr ⟨p, hp, rfl⟩,
        List.mem_append.mpr (Or.inr ?_)⟩
      exact List.mem_flatten.mpr ⟨_, List.mem_map.mpr ⟨b, hb, rfl⟩,
        List.mem_append.mpr (Or.inl hs)⟩
    · refine List.mem_flatten.mpr ⟨_, List.mem_map.mpr ⟨p, hp, rfl⟩,
        List.mem_append.mpr (Or.inr ?_)⟩
      refine List.mem_flatten.mpr ⟨_, List.mem_map.mpr ⟨b, hb, rfl⟩,
        List.mem_append.mpr (Or.inr ?_)⟩
      exact List.mem_flatten.mpr ⟨_, List.mem_map.mpr ⟨c, hc, rfl⟩, hs⟩

theorem integrityIssues_ne_nil_iff (d : XMLDocument) :
    integrityIssues d ≠ [] ↔ structuralViolation d := by
  rw [Ne, List.eq_nil_iff_forall_not_mem]
  push_neg
  constructor
  · rintro ⟨s, hs⟩
    rw [mem_integrityIssues_iff] at hs
    obtain ⟨p, hp, hs⟩ := hs
    have hnav : p.2 ∈ docElems d "odeNavStructure" := snd_mem_of_mem_withIdx _ _ _ hp
    rcases hs with hs | ⟨b, hb, hs⟩
    · exact Or.inl ⟨p.2, hnav,
        (ensureChildTags_ne_nil_iff _ _).mp (of_mem_issueLine _ _ _ hs).1⟩
    · have hblk : b.2 ∈ descElems p.2 "odePagStructure" := snd_mem_of_mem_withIdx _ _ _ hb
      rcases hs with hs | ⟨c, hc, hs⟩
      · exact Or.inr (Or.inl ⟨p.2, hnav, b.2, hblk,
          (ensureChildTags_ne_nil_iff _ _).mp (of_mem_issueLine _ _ _ hs).1⟩)
      · exact Or.inr (Or.inr ⟨p.2, hnav, b.2, hblk, c.2,
          snd_mem_of_mem_withIdx _ _ _ hc,
          (ensureChildTags_ne_nil_iff _ _).mp (of_mem_issueLine _ _ _ hs).1⟩)
  · rintro (⟨nav, hnav, hv⟩ | ⟨nav, hnav, blk, hblk, hv⟩ | ⟨nav, hnav, blk, hblk, comp, hcomp, hv⟩)
    · obtain ⟨i, hi⟩ := exists_withIdx_of_mem _ _ hnav
      have hne := (ensureChildTags_ne_nil_iff _ _).mpr hv
      refine ⟨"Navigation structure #" ++ toString (i + 1) ++ " is missing fields: " ++
        joinSep ", " (ensureChildTags nav requiredNavFields),
        (mem_integrityIssues_iff d _).mpr ⟨(i, nav), hi, Or.inl ?_⟩⟩
      rw [navIssue, issueLine_of_ne _ _ hne]
      simp
    · obtain ⟨i, hi⟩ := exists_withIdx_of_mem _ _ hnav
      obtain ⟨j, hj⟩ := exists_withIdx_of_mem _ _ hblk
      have hne := (ensureChildTags_ne_nil_iff _ _).mpr hv
      refine ⟨"Block #" ++ toString (j + 1) ++ " in page #" ++ toString (i + 1) ++
        " is missing fields: " ++ joinSep ", " (ensureChildTags blk requiredBlockFields),
        (mem_integrityIssues_iff d _).mpr
          ⟨(i, nav), hi, Or.inr ⟨(j, blk), hj, Or.inl ?_⟩⟩⟩
      rw [blockIssue, issueLine_of_ne _ _ hne]
      simp
    · obtain ⟨i, hi⟩ := exists_withIdx_of_mem _ _ hnav
      obtain ⟨j, hj⟩ := exists_withIdx_of_mem _ _ hblk
      obtain ⟨k, hk⟩ := exists_withIdx_of_mem _ _ hcomp
      have hne := (ensureChildTags_ne_nil_iff _ _).mpr hv
      refine ⟨"Component #" ++ toString (k + 1) ++ " in block #" ++ toString (j + 1) ++
        " of page #" ++ toString (i + 1) ++ " is missing fields: " ++
        joinSep ", " (ensureChildTags comp requiredComponentFields),
        (mem_integrityIssues_iff d _).mpr
          ⟨(i, nav), hi, Or.inr ⟨(j, blk), hj, Or.inr ⟨(k, comp), hk, ?_⟩⟩⟩⟩
      rw [componentIssue, issueLine_of_ne _ _ hne]
      simp

/-- C3: `validateStructuralIntegrity` returns `error` exactly when some
navigation record, block, or component misses a required field; the single
message is the space-joined enumeration of all collected issue lines; every
violating site contributes its 1-based-located line to that enumeration
(in particular simultaneous violations in unrelated blocks all appear); and
with no violation the result is the fixed success value. -/
theorem validateStructuralIntegrity_spec (d : XMLDocument) :
    ((validateStructuralIntegrity d).status = "error" ↔ structuralViolation d) ∧
    (¬ structuralViolation d →
      validateStructuralIntegrity d =
        ⟨"success", "The internal XML structure matches the expected layout."⟩) ∧
    ((validateStructuralIntegrity d).status = "error" →
      (validateStructuralIntegrity d).message = joinSep " " (integrityIssues d)) ∧
    (∀ i nav, (docElems d "odeNavStructure").get? i = some nav →
      ensureChildTags nav requiredNavFields ≠ [] →
      ("Navigation structure #" ++ toString (i + 1) ++ " is missing fields: " ++
        joinSep ", " (ensureChildTags nav requiredNavFields)) ∈ integrityIssues d) ∧
    (∀ i nav j blk, (docElems d "odeNavStructure").get? i = some nav →
      (descElems nav "odePagStructure").get? j = some blk →
      ensureChildTags blk requiredBlockFields ≠ [] →
      ("Block #" ++ toString (j + 1) ++ " in page #" ++ toString (i + 1) ++
        " is missing fields: " ++ joinSep ", " (ensureChildTags blk requiredBlockFields)) ∈
        integrityIssues d) ∧
    (∀ i nav j blk k comp, (docElems d "odeNavStructure").get? i = some nav →
      (descElems nav "odePagStructure").get? j = some blk →
      (descElems blk "odeComponent").get? k = some comp →
      ensureChildTags comp requiredComponentFields ≠ [] →
      ("Component #" ++ toString (k + 1) ++ " in block #" ++ toString (j + 1) ++
        " of page #" ++ toString (i + 1) ++ " is missing fields: " ++
        joinSep ", " (ensureChildTags comp requiredComponentFields)) ∈
        integrityIssues d) := by
  refine ⟨?_, ?_, ?_, ?_, ?_, ?_⟩
  · rw [← integrityIssues_ne_nil_iff]
    unfold validateStructuralIntegrity
    by_cases h : (integrityIssues d).isEmpty = true
    · rw [if_pos h]
      simp [List.isEmpty_iff.mp h]
    · rw [if_neg h]
      simpa [List.isEmpty_iff] using h
  · rw [← integrityIssues_ne_nil_iff]
    intro h
    push_neg at h
    unfold validateStructuralIntegrity
    rw [if_pos (by simp [h])]
  · unfold validateStructuralIntegrity
    by_cases h : (integrityIssues d).isEmpty = true
    · rw [if_pos h]; intro hc; exact absurd hc (by decide)
    · rw [if_neg h]; intro _; rfl
  · intro i nav hi hne
    refine (mem_integrityIssues_iff d _).mpr ⟨(i, nav), by simpa using mem_withIdx_of_getQ _ 0 i nav hi, Or.inl ?_⟩
    rw [navIssue, issueLine_of_ne _ _ hne]
    simp
  · intro i nav j blk hi hj hne
    refine (mem_integrityIssues_iff d _).mpr ⟨(i, nav), by simpa using mem_withIdx_of_getQ _ 0 i nav hi,
      Or.inr ⟨(j, blk), by simpa using mem_withIdx_of_getQ _ 0 j blk hj, Or.inl ?_⟩⟩
    rw [blockIssue, issueLine_of_ne _ _ hne]
    simp
  · intro i nav j blk k comp hi hj hk hne
    refine (mem_integrityIssues_iff d _).mpr ⟨(i, nav), by simpa using mem_withIdx_of_getQ _ 0 i nav hi,
      Or.inr ⟨(j, blk), by simpa using mem_withIdx_of_getQ _ 0 j blk hj,
        Or.inr ⟨(k, comp), by simpa using mem_withIdx_of_getQ _ 0 k comp hk, ?_⟩⟩⟩
    rw [componentIssue, issueLine_of_ne _ _ hne]
    simp

/-- Witness for C3: the theorem applied at `c3Doc`, which has a component
missing three required fields in block 1 and, simultaneously, an unrelated
block 2 missing `blockName`; both lines appear in the aggregated issues
and the overall status is `error`. -/
theorem validateStructuralIntegrity_spec_witness :
    (validateStructuralIntegrity c3Doc).status = "error" ∧
    "Component #1 in block #1 of page #1 is missing fields: odeIdeviceTypeName, htmlView, jsonProperties"
      ∈ integrityIssues c3Doc ∧
    "Block #2 in page #1 is missing fields: blockName" ∈ integrityIssues c3Doc ∧
    (validateStructuralIntegrity c3Doc).message = joinSep " " (integrityIssues c3Doc) := by
  have h := validateStructuralIntegrity_spec c3Doc
  have hcomp := h.2.2.2.2.2 0 c3Nav 0 c3Block1 0 c3CompBad (by decide) (by decide) (by decide) (by decide)
  have hblk := h.2.2.2.2.1 0 c3Nav 1 c3Block2 (by decide) (by decide) (by decide)
  have herr : (validateStructuralIntegrity c3Doc).status = "error" := by decide
  refine ⟨herr, ?_, ?_, h.2.2.1 herr⟩
  · have e : ("Component #" ++ toString (0 + 1) ++ " in block #" ++ toString (0 + 1) ++
        " of page #" ++ toString (0 + 1) ++ " is missing fields: " ++
        joinSep ", " (ensureChildTags c3CompBad requiredComponentFields)) =
        "Component #1 in block #1 of page #1 is missing fields: odeIdeviceTypeName, htmlView, jsonProperties" := by
      decide
    exact e ▸ hcomp
  · have e : ("Block #" ++ toString (1 + 1) ++ " in page #" ++ toString (0 + 1) ++
        " is missing fields: " ++ joinSep ", " (ensureChildTags c3Block2 requiredBlockFields)) =
        "Block #2 in page #1 is missing fields: blockName" := by
      decide
    exact e ▸ hblk

theorem dictGet_dictSet_self (d : LDict) (k : String) (v : LVal) :
    dictGet (dictSet d k v) k = some v := by
  match d with
  | .nil => simp [dictSet, dictGet]
  | .cons k0 v0 rest =>
    by_cases h : k0 = k
    · simp [dictSet, dictGet, h]
    · simp [dictSet, dictGet, h, dictGet_dictSet_self rest k v]

theorem dictGet_dictSet_other (d : LDict) (k q : String) (v : LVal) (h : q ≠ k) :
    dictGet (dictSet d k v) q = dictGet d q := by
  match d with
  | .nil => simp [dictSet, dictGet, Ne.symm h]
  | .cons k0 v0 rest =>
    by_cases h0 : k0 = k
    · subst h0
      simp [dictSet, dictGet, Ne.symm h]
    · by_cases h1 : k0 = q
      · simp [dictSet, dictGet, h0, h1, h]
      · simp [dictSet, dictGet, h0, h1, dictGet_dictSet_other rest k q v h]

theorem copyIfAbsent_get_other (p : LDict) (lk mk q : String) (h : q ≠ mk) :
    dictGet (copyIfAbsent p lk mk) q = dictGet p q := by
  unfold copyIfAbsent
  by_cases hc : (truthyO (dictGet p lk) && !truthyO (dictGet p mk)) = true
  · rw [if_pos hc, dictGet_dictSet_other _ _ _ _ h]
  · rw [if_neg hc]

theorem copyIfAbsent_get_self (p : LDict) (lk mk : String) :
    dictGet (copyIfAbsent p lk mk) mk =
      if truthyO (dictGet p lk) && !truthyO (dictGet p mk) then dictGet p lk
      else dictGet p mk := by
  unfold copyIfAbsent
  by_cases hc : (truthyO (dictGet p lk) && !truthyO (dictGet p mk)) = true
  · rw [if_pos hc, if_pos hc, dictGet_dictSet_self]
    cases hlk : dictGet p lk with
    | none => rw [hlk] at hc; simp [truthyO] at hc
    | some w => simp
  · rw [if_neg hc, if_neg hc]

/-- C5 (amended): `normalizeLegacyMetadata` maps `null` to `null`, passes
`resources` through unchanged, and copies each legacy key onto its modern
equivalent exactly when the legacy value is truthy and the modern-named key
is absent or holds a falsy (empty-string) value; a modern-named key holding
a truthy value is never overwritten, and keys other than the five modern
names are untouched. -/
theorem normalizeLegacyMetadata_spec :
    normalizeLegacyMetadata none = none ∧
    ∀ md : LMeta, ∃ res, normalizeLegacyMetadata (some md) = some res ∧
      res.resources = md.resources ∧
      (∀ lk mk, (lk, mk) ∈ legacyKeyPairs →
        dictGet res.properties mk =
          (if truthyO (dictGet md.properties lk) && !truthyO (dictGet md.properties mk)
           then dictGet md.properties lk else dictGet md.properties mk)) ∧
      (∀ q, (∀ p ∈ legacyKeyPairs, q ≠ p.2) →
        dictGet res.properties q = dictGet md.properties q) := by
  refine ⟨rfl, fun md => ⟨_, rfl, rfl, ?_, ?_⟩⟩
  · intro lk mk hmem
    simp only [legacyKeyPairs, List.mem_cons, List.not_mem_nil, or_false,
      Prod.mk.injEq] at hmem
    rcases hmem with ⟨rfl, rfl⟩ | ⟨rfl, rfl⟩ | ⟨rfl, rfl⟩ | ⟨rfl, rfl⟩ | ⟨rfl, rfl⟩ <;>
      simp [copyIfAbsent_get_other, copyIfAbsent_get_self]
  · intro q hq
    rw [copyIfAbsent_get_other _ "_newlicense" "license" q (hq ("_newlicense", "license") (by decide)),
      copyIfAbsent_get_other _ "_description" "pp_description" q (hq ("_description", "pp_description") (by decide)),
      copyIfAbsent_get_other _ "_lang" "pp_lang" q (hq ("_lang", "pp_lang") (by decide)),
      copyIfAbsent_get_other _ "_author" "pp_author" q (hq ("_author", "pp_author") (by decide)),
      copyIfAbsent_get_other _ "_title" "pp_title" q (hq ("_title", "pp_title") (by decide))]

/-- Counterexample for C5 as frozen: in `{pp_title: "", _title: "B"}` the
modern-named key `pp_title` is present in the properties map, yet the
normalizer overwrites it (the guard is JS truthiness, not presence). -/
theorem normalizeLegacyMetadata_counterexample :
    dictGet c5Meta.properties "pp_title" = some (.s "") ∧
    normalizeLegacyMetadata (some c5Meta) =
      some ⟨.cons "pp_title" (.s "B") (.cons "_title" (.s "B") .nil), []⟩ := by
  decide

/-- Witness for C5: the amended theorem applied at
`{pp_title: "A", _title: "B"}` — the truthy modern key is retained and the
resources map passes through. -/
theorem normalizeLegacyMetadata_spec_witness :
    ∃ res, normalizeLegacyMetadata (some c5KeepMeta) = some res ∧
      res.resources = [("logo", "img.png")] ∧
      dictGet res.properties "pp_title" = some (.s "A") := by
  obtain ⟨res, h1, h2, h3, _⟩ := normalizeLegacyMetadata_spec.2 c5KeepMeta
  refine ⟨res, h1, h2, ?_⟩
  rw [h3 "_title" "pp_title" (by decide)]
  decide

/-- C6 (amended): when the document has a root element with a direct
`dictionary` element child, `extractLegacyMetadata` copies a non-empty
`version` root attribute to `properties.legacy_manifest_version` and a
non-empty `class` root attribute to `properties.legacy_manifest_class`. -/
theorem extractLegacyMetadata_spec (d : XMLDocument) (root td : XNode)
    (hroot : d.documentElement = some root)
    (htd : findFirstChildByLocalName root "dictionary" = some td) :
    ∃ m, extractLegacyMetadata d = some m ∧
      (∀ v, getAttr root "version" = some v → v ≠ "" →
        dictGet m.properties "legacy_manifest_version" = some (.s v)) ∧
      (∀ c, getAttr root "class" = some c → c ≠ "" →
        dictGet m.properties "legacy_manifest_class" = some (.s c)) := by
  simp only [extractLegacyMetadata, hroot, htd]
  refine ⟨_, rfl, ?_, ?_⟩
  · intro v hv hne
    rw [hv]
    cases hc : getAttr root "class" with
    | none =>
      dsimp only
      rw [if_pos hne]
      exact dictGet_dictSet_self _ _ _
    | some c =>
      dsimp only
      rw [if_pos hne]
      by_cases hce : c ≠ ""
      · rw [if_pos hce, dictGet_dictSet_other _ _ _ _ (by decide), dictGet_dictSet_self]
      · rw [if_neg hce]
        exact dictGet_dictSet_self _ _ _
  · intro c hc hne
    rw [hc]
    dsimp only
    rw [if_pos hne]
    exact dictGet_dictSet_self _ _ _

/-- Counterexample for C6 as frozen: a legacy document whose root carries
`version="0.3"` but has no `dictionary` child returns empty properties —
the synthetic provenance keys are skipped by the early return. -/
theorem extractLegacyMetadata_counterexample :
    c6BadDoc.documentElement = some (.elem "oldformat" [("version", "0.3")] .nil) ∧
    getAttr (.elem "oldformat" [("version", "0.3")] .nil) "version" = some "0.3" ∧
    extractLegacyMetadata c6BadDoc = some ⟨.nil, []⟩ ∧
    dictGet (⟨.nil, []⟩ : LMeta).properties "legacy_manifest_version" = none := by
  decide

/-- Witness for C6: the amended theorem applied at the concrete scenario —
root not named `ode`, `version="0.3"`, nested dictionary with `_title`;
the result includes the synthetic provenance keys and the decoded title. -/
theorem extractLegacyMetadata_spec_witness :
    ∃ m, extractLegacyMetadata c6Doc = some m ∧
      dictGet m.properties "legacy_manifest_version" = some (.s "0.3") ∧
      dictGet m.properties "legacy_manifest_class" = some (.s "exe.engine.package.Package") ∧
      dictGet m.properties "_title" = some (.s "My Course") := by
  obtain ⟨m, hm, hv, hc⟩ := extractLegacyMetadata_spec c6Doc c6Root c6Dict rfl (by decide)
  refine ⟨m, hm, hv "0.3" (by decide) (by decide),
    hc "exe.engine.package.Package" (by decide) (by decide), ?_⟩
  have hval : extractLegacyMetadata c6Doc = some c6ExpectedMeta := by decide
  rw [hval] at hm
  injection hm with hm
  rw [← hm]
  decide

/-- C1: evaluation of `buildHierarchy` at the failing input.  The sibling
group under `c` is returned as `[order=3, order=1]` — not ascending —
because `sortHierarchy` recurses only into groups with more than one
member and therefore never reaches the groups nested beneath the singleton
group `[c]`. -/
theorem sortHierarchy_c1_evaluation :
    buildHierarchy c1Pages = c1Expected ∧
    pfOrders (pnChildren (.node "c" "C" "" (some 0) 1
      (.cons (.node "a" "A" "" (some 3) 2 .nil)
        (.cons (.node "b" "B" "" (some 1) 2 .nil) .nil)))) = [some 3, some 1] ∧
    ordersAscending [some 3, some 1] = false := by
  exact ⟨by decide, by decide, by decide⟩

theorem foldl_placeStep (ps : List FlatPage) (L : List Nat) (st : PlaceState) :
    (L.foldl (placeStep ps) st).roots =
      st.roots ++ L.filter (fun j => (resolvedParent ps j).isNone) ∧
    ∀ i, (L.foldl (placeStep ps) st).kids i =
      st.kids i ++ L.filter (fun j => decide (resolvedParent ps j = some i)) := by
  induction L generalizing st with
  | nil => simp
  | cons j rest ih =>
    cases hr : resolvedParent ps j with
    | none =>
      have hstep : placeStep ps st j = { st with roots := st.roots ++ [j] } := by
        unfold placeStep
        rw [hr]
      constructor
      · rw [List.foldl_cons, hstep, (ih _).1]
        simp [List.filter_cons, hr]
      · intro i
        rw [List.foldl_cons, hstep, (ih _).2 i]
        simp [List.filter_cons, hr]
    | some i0 =>
      have hstep : placeStep ps st j =
          { st with kids := fun k => if k = i0 then st.kids k ++ [j] else st.kids k } := by
        unfold placeStep
        rw [hr]
      constructor
      · rw [List.foldl_cons, hstep, (ih _).1]
        simp [List.filter_cons, hr]
      · intro i
        rw [List.foldl_cons, hstep, (ih _).2 i]
        by_cases hii : i = i0
        · subst hii
          simp [List.filter_cons, hr]
        · simp [List.filter_cons, hr, hii, Ne.symm hii]

theorem placePages_roots (ps : List FlatPage) :
    (placePages ps).roots =
      (List.range ps.length).filter (fun j => (resolvedParent ps j).isNone) := by
  have := (foldl_placeStep ps (List.range ps.length) ⟨[], fun _ => []⟩).1
  simpa [placePages] using this

theorem placePages_kids (ps : List FlatPage) (i : Nat) :
    (placePages ps).kids i =
      (List.range ps.length).filter (fun j => decide (resolvedParent ps j = some i)) := by
  have := (foldl_placeStep ps (List.range ps.length) ⟨[], fun _ => []⟩).2 i
  simpa [placePages] using this

theorem mem_iff_pageAt (ps : List FlatPage) (q : FlatPage) :
    q ∈ ps ↔ ∃ i, i < ps.length ∧ pageAt ps i = q := by
  induction ps with
  | nil => simp
  | cons x rest ih =>
    constructor
    · intro h
      rcases List.mem_cons.mp h with h | h
      · exact ⟨0, by simp [pageAt, List.getD], h.symm ▸ rfl⟩
      · obtain ⟨i, hi, he⟩ := ih.mp h
        exact ⟨i + 1, by simpa using hi, by simpa [pageAt, List.getD] using he⟩
    · rintro ⟨i, hi, he⟩
      cases i with
      | zero =>
        subst he
        simp [pageAt, List.getD]
      | succ i =>
        subst he
        exact List.mem_cons_of_mem _ (ih.mpr ⟨i, by simpa using hi, by simp [pageAt, List.getD]⟩)

theorem resolvedParent_lt (ps : List FlatPage) (j i : Nat)
    (h : resolvedParent ps j = some i) : i < ps.length := by
  unfold resolvedParent at h
  by_cases hc : (pageAt ps j).parentId ≠ "" ∧ (pageAt ps j).parentId ≠ (pageAt ps j).id
  · rw [if_pos hc] at h
    unfold findLastIdx at h
    obtain ⟨ys, hys⟩ := List.getLast?_eq_some_iff.mp h
    have : i ∈ (List.range ps.length).filter
        (fun i => (pageAt ps i).id ≠ "" ∧ (pageAt ps i).id = (pageAt ps j).parentId) := by
      rw [hys]; simp
    exact List.mem_range.mp (List.mem_of_mem_filter this)
  · rw [if_neg hc] at h
    cases h

theorem findLastIdx_isSome_iff (ps : List FlatPage) (pid : String) (hpid : pid ≠ "") :
    (findLastIdx ps pid).isSome ↔ ∃ q ∈ ps, q.id = pid := by
  unfold findLastIdx
  rw [List.getLast?_isSome]
  constructor
  · intro hne
    obtain ⟨i, hi⟩ := List.exists_mem_of_ne_nil _ hne
    have := List.mem_filter.mp hi
    obtain ⟨hrange, hcond⟩ := this
    simp only [decide_eq_true_eq] at hcond
    exact ⟨pageAt ps i, (mem_iff_pageAt ps _).mpr ⟨i, List.mem_range.mp hrange, rfl⟩, hcond.2⟩
  · rintro ⟨q, hq, hid⟩
    obtain ⟨i, hi, he⟩ := (mem_iff_pageAt ps q).mp hq
    intro hnil
    have : i ∈ (List.range ps.length).filter
        (fun i => (pageAt ps i).id ≠ "" ∧ (pageAt ps i).id = pid) := by
      rw [List.mem_filter]
      refine ⟨List.mem_range.mpr hi, ?_⟩
      simp only [decide_eq_true_eq]
      rw [he, hid]
      exact ⟨hpid, rfl⟩
    rw [hnil] at this
    cases this

theorem resolvedParent_isSome_iff (ps : List FlatPage) (j : Nat) :
    (resolvedParent ps j).isSome ↔
      ((pageAt ps j).parentId ≠ "" ∧ (pageAt ps j).parentId ≠ (pageAt ps j).id ∧
        ∃ q ∈ ps, q.id = (pageAt ps j).parentId) := by
  unfold resolvedParent
  by_cases hc : (pageAt ps j).parentId ≠ "" ∧ (pageAt ps j).parentId ≠ (pageAt ps j).id
  · rw [if_pos hc, findLastIdx_isSome_iff ps _ hc.1]
    constructor
    · intro h; exact ⟨hc.1, hc.2, h⟩
    · rintro ⟨_, _, h⟩; exact h
  · rw [if_neg hc]
    constructor
    · intro h; cases h
    · rintro ⟨h1, h2, _⟩; exact absurd ⟨h1, h2⟩ hc

theorem mem_kids_iff (ps : List FlatPage) (i j : Nat) :
    j ∈ (placePages ps).kids i ↔ j < ps.length ∧ resolvedParent ps j = some i := by
  rw [placePages_kids, List.mem_filter, List.mem_range]
  simp

theorem mem_roots_iff (ps : List FlatPage) (j : Nat) :
    j ∈ (placePages ps).roots ↔ j < ps.length ∧ resolvedParent ps j = none := by
  rw [placePages_roots, List.mem_filter, List.mem_range]
  simp [Option.isNone_iff_eq_none]

theorem findLastIdx_id (ps : List FlatPage) (pid : String) (i : Nat)
    (h : findLastIdx ps pid = some i) : (pageAt ps i).id = pid := by
  unfold findLastIdx at h
  obtain ⟨ys, hys⟩ := List.getLast?_eq_some_iff.mp h
  have : i ∈ (List.range ps.length).filter
      (fun i => (pageAt ps i).id ≠ "" ∧ (pageAt ps i).id = pid) := by
    rw [hys]; simp
  have := List.mem_filter.mp this
  simp only [decide_eq_true_eq] at this
  exact this.2.2

theorem resolvedParent_id (ps : List FlatPage) (j i : Nat)
    (h : resolvedParent ps j = some i) : (pageAt ps i).id = (pageAt ps j).parentId := by
  unfold resolvedParent at h
  by_cases hc : (pageAt ps j).parentId ≠ "" ∧ (pageAt ps j).parentId ≠ (pageAt ps j).id
  · rw [if_pos hc] at h
    exact findLastIdx_id ps _ i h
  · rw [if_neg hc] at h
    cases h

theorem sum_indicator_count {α : Type} [DecidableEq α] (l : List α) (a : α) :
    (l.map (fun x => if a = x then 1 else 0)).sum = l.count a := by
  induction l with
  | nil => simp
  | cons x rest ih =>
    by_cases h : a = x
    · subst h
      simp [List.count_cons, ih, Nat.add_comm]
    · simp [List.count_cons, ih, h]

/-- C2: the assembly loop of `buildHierarchy` attaches the record at
position `j` beneath some node exactly when its declared parent id is
non-empty, differs from its own id, and occurs as the id of some record in
the list; when it does attach, it attaches beneath a node whose id equals
the declared parent id; in every other case it becomes a root; and in all
cases it is placed exactly once across the roots and all children groups
(never dropped, never an error). -/
theorem buildHierarchy_placement_spec (ps : List FlatPage) (j : Nat) (hj : j < ps.length) :
    ((∃ i, j ∈ (placePages ps).kids i) ↔
      ((pageAt ps j).parentId ≠ "" ∧ (pageAt ps j).parentId ≠ (pageAt ps j).id ∧
        ∃ q ∈ ps, q.id = (pageAt ps j).parentId)) ∧
    (∀ i, j ∈ (placePages ps).kids i → (pageAt ps i).id = (pageAt ps j).parentId) ∧
    (j ∈ (placePages ps).roots ↔
      ¬((pageAt ps j).parentId ≠ "" ∧ (pageAt ps j).parentId ≠ (pageAt ps j).id ∧
        ∃ q ∈ ps, q.id = (pageAt ps j).parentId)) ∧
    ((placePages ps).roots.count j +
      ((List.range ps.length).map (fun i => ((placePages ps).kids i).count j)).sum = 1) := by
  refine ⟨?_, ?_, ?_, ?_⟩
  · rw [← resolvedParent_isSome_iff]
    constructor
    · rintro ⟨i, hi⟩
      rw [(mem_kids_iff ps i j).mp hi |>.2]
      rfl
    · intro hs
      obtain ⟨i, hi⟩ := Option.isSome_iff_exists.mp hs
      exact ⟨i, (mem_kids_iff ps i j).mpr ⟨hj, hi⟩⟩
  · intro i hi
    exact resolvedParent_id ps j i ((mem_kids_iff ps i j).mp hi).2
  · rw [← resolvedParent_isSome_iff, mem_roots_iff]
    constructor
    · rintro ⟨_, hnone⟩
      rw [hnone]
      simp
    · intro h
      exact ⟨hj, Option.not_isSome_iff_eq_none.mp h⟩
  · rw [placePages_roots]
    cases hr : resolvedParent ps j with
    | none =>
      have hroots : ((List.range ps.length).filter
          (fun j => (resolvedParent ps j).isNone)).count j =
          (List.range ps.length).count j := by
        apply List.count_filter
        simp [hr]
      have hcnt : (List.range ps.length).count j = 1 :=
        List.count_eq_one_of_mem (List.nodup_range _) (List.mem_range.mpr hj)
      have hkids : ∀ i, ((placePages ps).kids i).count j = 0 := by
        intro i
        apply List.count_eq_zero_of_not_mem
        intro hmem
        rw [mem_kids_iff] at hmem
        rw [hr] at hmem
        cases hmem.2
      have hzero : ((List.range ps.length).map
          (fun i => ((placePages ps).kids i).count j)).sum = 0 := by
        apply List.sum_eq_zero
        intro x hx
        obtain ⟨i, _, rfl⟩ := List.mem_map.mp hx
        exact hkids i
      rw [hroots, hcnt, hzero]
    | some i0 =>
      have hroots : ((List.range ps.length).filter
          (fun j => (resolvedParent ps j).isNone)).count j = 0 := by
        apply List.count_eq_zero_of_not_mem
        intro hmem
        have := (List.mem_filter.mp hmem).2
        rw [hr] at this
        cases this
      have hfun : (fun i => ((placePages ps).kids i).count j) =
          (fun i => if i0 = i then 1 else 0) := by
        funext i
        by_cases hii : i0 = i
        · subst hii
          have h1 : ((placePages ps).kids i0).count j =
              (List.range ps.length).count j := by
            rw [placePages_kids]
            apply List.count_filter
            simp [hr]
          rw [h1, List.count_eq_one_of_mem (List.nodup_range _) (List.mem_range.mpr hj)]
          simp
        · rw [if_neg hii]
          apply List.count_eq_zero_of_not_mem
          intro hmem
          have := ((mem_kids_iff ps i j).mp hmem).2
          rw [hr] at this
          exact hii (Option.some.inj this)
      rw [hfun, sum_indicator_count, List.count_eq_one_of_mem (List.nodup_range _)
        (List.mem_range.mpr (resolvedParent_lt ps j i0 hr)), hroots]

/-- Witness for C2: the theorem applied at `c2Pages` — the record with a
resolvable parent attaches, the dangling-parent and self-parent records
become roots, and the dangling record is placed exactly once. -/
theorem buildHierarchy_placement_spec_witness :
    (∃ i, 1 ∈ (placePages c2Pages).kids i) ∧
    2 ∈ (placePages c2Pages).roots ∧
    0 ∈ (placePages c2Pages).roots ∧
    ((placePages c2Pages).roots.count 0 +
      ((List.range c2Pages.length).map (fun i => ((placePages c2Pages).kids i).count 0)).sum = 1) := by
  have h1 := buildHierarchy_placement_spec c2Pages 1 (by decide)
  have h2 := buildHierarchy_placement_spec c2Pages 2 (by decide)
  have h0 := buildHierarchy_placement_spec c2Pages 0 (by decide)
  exact ⟨h1.1.mpr (by decide), h2.2.2.1.mpr (by decide), h0.2.2.1.mpr (by decide), h0.2.2.2⟩

theorem resolvedParent_none_of_ge (ps : List FlatPage) (j : Nat)
    (h : ps.length ≤ j) : resolvedParent ps j = none := by
  unfold resolvedParent
  have : pageAt ps j = default := List.getD_eq_default _ _ h
  rw [this]
  simp [default]

theorem iterParent_succ_none (ps : List FlatPage) (k j : Nat)
    (h : iterParent ps k j = none) : iterParent ps (k + 1) j = none := by
  show (iterParent ps k j).bind (resolvedParent ps) = none
  rw [h]
  rfl

theorem iterParent_none_mono (ps : List FlatPage) (k m j : Nat) (hkm : k ≤ m)
    (h : iterParent ps k j = none) : iterParent ps m j = none := by
  induction m with
  | zero =>
    have : k = 0 := Nat.le_zero.mp hkm
    subst this
    exact h
  | succ m ih =>
    rcases Nat.lt_or_ge k (m + 1) with hlt | hge
    · exact iterParent_succ_none ps m j (ih (Nat.lt_succ_iff.mp hlt))
    · have : k = m + 1 := Nat.le_antisymm hkm hge
      subst this
      exact h

theorem iterParent_lt (ps : List FlatPage) (j : Nat) (hj : j < ps.length) :
    ∀ k r, iterParent ps k j = some r → r < ps.length := by
  intro k
  cases k with
  | zero =>
    intro r h
    have : j = r := Option.some.inj h
    subst this
    exact hj
  | succ k =>
    intro r h
    have h2 : (iterParent ps k j).bind (resolvedParent ps) = some r := h
    cases hk : iterParent ps k j with
    | none => rw [hk] at h2; cases h2
    | some c =>
      rw [hk] at h2
      exact resolvedParent_lt ps c r h2

theorem sum_map_add {α : Type} (l : List α) (f g : α → Nat) :
    (l.map (fun x => f x + g x)).sum = (l.map f).sum + (l.map g).sum := by
  induction l with
  | nil => simp
  | cons x rest ih =>
    simp [ih]
    omega

theorem length_filter_eq_one_of_unique {α : Type} (l : List α) (p : α → Bool) (a : α)
    (hnd : l.Nodup) (ha : a ∈ l) (hpa : p a = true)
    (huniq : ∀ b ∈ l, p b = true → b = a) :
    (l.filter p).length = 1 := by
  match l with
  | [] => cases ha
  | x :: rest =>
    rw [List.nodup_cons] at hnd
    rcases List.mem_cons.mp ha with rfl | ha2
    · rw [List.filter_cons_of_pos hpa]
      have hnil : rest.filter p = [] := by
        rw [List.filter_eq_nil_iff]
        intro b hb hpb
        have hba := huniq b (List.mem_cons_of_mem _ hb) hpb
        subst hba
        exact hnd.1 hb
      rw [hnil]
      rfl
    · have hpx : ¬ p x = true := by
        intro hpx
        have hxa := huniq x (List.mem_cons_self x rest) hpx
        subst hxa
        exact hnd.1 ha2
      rw [List.filter_cons_of_neg (by simpa using hpx)]
      exact length_filter_eq_one_of_unique rest p a hnd.2 ha2 hpa
        (fun b hb hpb => huniq b (List.mem_cons_of_mem _ hb) hpb)

theorem swap_sum_filter (ps : List FlatPage) (j r : Nat) (K : List Nat) :
    (((placePages ps).kids r).map
      (fun c => ((K.filter (fun k => decide (iterParent ps k j = some c))).length))).sum =
    (K.filter (fun k => decide ((iterParent ps k j).bind (resolvedParent ps) = some r))).length := by
  induction K with
  | nil => simp
  | cons k K' ihK =>
    cases hk : iterParent ps k j with
    | none =>
      have hL : ∀ c : Nat,
          (((k :: K').filter (fun k => decide (iterParent ps k j = some c))).length) =
          ((K'.filter (fun k => decide (iterParent ps k j = some c))).length) := by
        intro c
        rw [List.filter_cons_of_neg (by simp [hk])]
      simp only [hL]
      rw [List.filter_cons_of_neg (by simp [hk])]
      exact ihK
    | some c0 =>
      have hL : (((placePages ps).kids r).map
          (fun c => (((k :: K').filter (fun k => decide (iterParent ps k j = some c))).length))) =
          (((placePages ps).kids r).map
          (fun c => ((if c0 = c then 1 else 0) +
            (K'.filter (fun k => decide (iterParent ps k j = some c))).length))) := by
        apply List.map_congr_left
        intro c _
        by_cases hcc : c0 = c
        · subst hcc
          rw [List.filter_cons_of_pos (by simp [hk]), if_pos rfl]
          simp [Nat.add_comm]
        · rw [List.filter_cons_of_neg (by simp [hk, hcc]), if_neg hcc]
          omega
      rw [hL, sum_map_add, sum_indicator_count, ihK]
      have hhead : ((placePages ps).kids r).count c0 =
          if (resolvedParent ps c0 = some r) then 1 else 0 := by
        rw [placePages_kids]
        by_cases hrc : resolvedParent ps c0 = some r
        · rw [if_pos hrc, List.count_filter (by simp [hrc])]
          have hc0 : c0 < ps.length := by
            by_contra hge
            rw [resolvedParent_none_of_ge ps c0 (Nat.le_of_not_lt hge)] at hrc
            cases hrc
          exact List.count_eq_one_of_mem (List.nodup_range _) (List.mem_range.mpr hc0)
        · rw [if_neg hrc]
          apply List.count_eq_zero_of_not_mem
          intro hmem
          have := (List.mem_filter.mp hmem).2
          simp only [decide_eq_true_eq] at this
          exact hrc this
      by_cases hrc : resolvedParent ps c0 = some r
      · rw [List.filter_cons_of_pos (by simp [hk, hrc]), hhead, if_pos hrc]
        simp [Nat.add_comm]
      · rw [List.filter_cons_of_neg (by simp [hk, hrc]), hhead, if_neg hrc]
        simp

theorem count_collectTree (ps : List FlatPage) (j : Nat) :
    ∀ (fuel r : Nat),
      (collectTree ps fuel r).count j =
        ((List.range (fuel + 1)).filter
          (fun k => decide (iterParent ps k j = some r))).length := by
  intro fuel
  induction fuel with
  | zero =>
    intro r
    by_cases h : j = r
    · subst h
      simp [collectTree, iterParent, List.range_succ]
    · simp [collectTree, iterParent, List.range_succ, h, Ne.symm h]
  | succ f ih =>
    intro r
    have hL : (collectTree ps (f + 1) r).count j =
        (if j = r then 1 else 0) +
          (((placePages ps).kids r).map
            (fun c => ((List.range (f + 1)).filter
              (fun k => decide (iterParent ps k j = some c))).length)).sum := by
      show (r :: (((placePages ps).kids r).map (collectTree ps f)).flatten).count j = _
      rw [List.count_cons, List.count_flatten, List.map_map]
      have hmap : (((placePages ps).kids r).map (List.count j ∘ collectTree ps f)) =
          (((placePages ps).kids r).map
            (fun c => ((List.range (f + 1)).filter
              (fun k => decide (iterParent ps k j = some c))).length)) := by
        apply List.map_congr_left
        intro c _
        exact ih c
      rw [hmap]
      by_cases h : j = r
      · simp [h, Nat.add_comm]
      · simp [h, Ne.symm h, Nat.add_comm]
    rw [hL, swap_sum_filter]
    have hR : ((List.range (f + 1 + 1)).filter
        (fun k => decide (iterParent ps k j = some r))).length =
        (if j = r then 1 else 0) +
          (((List.range (f + 1)).map (fun k => k + 1)).filter
            (fun k => decide (iterParent ps k j = some r))).length := by
      rw [List.range_succ_eq_map]
      by_cases h : j = r
      · rw [List.filter_cons_of_pos (by simp [iterParent, h]), if_pos h]
        simp [Nat.add_comm]
      · rw [List.filter_cons_of_neg (by simp [iterParent, h]), if_neg h]
        simp
    rw [hR, List.filter_map, List.length_map]
    have hcomp : ((List.range (f + 1)).filter
        (fun k => decide (iterParent ps (k + 1) j = some r))).length =
        ((List.range (f + 1)).filter
          (fun k => decide ((iterParent ps k j).bind (resolvedParent ps) = some r))).length := rfl
    have : (((fun k => decide (iterParent ps k j = some r)) ∘ (fun k => k + 1))) =
        (fun k => decide ((iterParent ps k j).bind (resolvedParent ps) = some r)) := rfl
    rw [this]

theorem swap_sum_filter_roots (ps : List FlatPage) (j : Nat) (K : List Nat) :
    ((placePages ps).roots.map
      (fun r => ((K.filter (fun k => decide (iterParent ps k j = some r))).length))).sum =
    (K.filter (landsOnRoot ps j)).length := by
  induction K with
  | nil => simp
  | cons k K' ihK =>
    cases hk : iterParent ps k j with
    | none =>
      have hL : ∀ r : Nat,
          (((k :: K').filter (fun k => decide (iterParent ps k j = some r))).length) =
          ((K'.filter (fun k => decide (iterParent ps k j = some r))).length) := by
        intro r
        rw [List.filter_cons_of_neg (by simp [hk])]
      simp only [hL]
      rw [List.filter_cons_of_neg (by simp [landsOnRoot, hk])]
      exact ihK
    | some r0 =>
      have hL : ((placePages ps).roots.map
          (fun r => (((k :: K').filter (fun k => decide (iterParent ps k j = some r))).length))) =
          ((placePages ps).roots.map
          (fun r => (if r0 = r then 1 else 0) +
            (K'.filter (fun k => decide (iterParent ps k j = some r))).length)) := by
        apply List.map_congr_left
        intro r _
        by_cases hrr : r0 = r
        · subst hrr
          rw [List.filter_cons_of_pos (by simp [hk]), if_pos rfl]
          simp [Nat.add_comm]
        · rw [List.filter_cons_of_neg (by simp [hk, hrr]), if_neg hrr]
          omega
      rw [hL, sum_map_add, sum_indicator_count, ihK]
      have hhead : ((placePages ps).roots.count r0) =
          if (decide (r0 < ps.length) && (resolvedParent ps r0).isNone) = true then 1 else 0 := by
        by_cases hb : (decide (r0 < ps.length) && (resolvedParent ps r0).isNone) = true
        · rw [if_pos hb]
          simp only [Bool.and_eq_true, decide_eq_true_eq, Option.isNone_iff_eq_none] at hb
          rw [placePages_roots, List.count_filter (by simp [hb.2])]
          exact List.count_eq_one_of_mem (List.nodup_range _) (List.mem_range.mpr hb.1)
        · rw [if_neg hb]
          apply List.count_eq_zero_of_not_mem
          intro hmem
          rw [mem_roots_iff] at hmem
          exact hb (by simp [hmem.1, hmem.2])
      by_cases hb : (decide (r0 < ps.length) && (resolvedParent ps r0).isNone) = true
      · rw [List.filter_cons_of_pos (by simp only [landsOnRoot, hk]; exact hb), hhead, if_pos hb]
        simp [Nat.add_comm]
      · rw [List.filter_cons_of_neg (by simp only [landsOnRoot, hk]; simpa using hb), hhead, if_neg hb]
        simp

theorem count_forest (ps : List FlatPage) (j : Nat) :
    ((((placePages ps).roots.map (collectTree ps ps.length)).flatten).count j) =
      ((List.range (ps.length + 1)).filter (landsOnRoot ps j)).length := by
  rw [List.count_flatten, List.map_map]
  have hmap : ((placePages ps).roots.map (List.count j ∘ collectTree ps ps.length)) =
      ((placePages ps).roots.map
        (fun r => ((List.range (ps.length + 1)).filter
          (fun k => decide (iterParent ps k j = some r))).length)) := by
    apply List.map_congr_left
    intro r _
    exact count_collectTree ps j ps.length r
  rw [hmap, swap_sum_filter_roots]

theorem landsOnRoot_dies (ps : List FlatPage) (j k : Nat)
    (h : landsOnRoot ps j k = true) :
    (iterParent ps k j).isSome ∧ iterParent ps (k + 1) j = none := by
  unfold landsOnRoot at h
  cases hk : iterParent ps k j with
  | none => rw [hk] at h; cases h
  | some r =>
    rw [hk] at h
    simp only [Bool.and_eq_true, decide_eq_true_eq, Option.isNone_iff_eq_none] at h
    refine ⟨by simp, ?_⟩
    show (iterParent ps k j).bind (resolvedParent ps) = none
    rw [hk]
    simpa using h.2

theorem landsOnRoot_of_dies (ps : List FlatPage) (j k : Nat) (hj : j < ps.length)
    (hs : (iterParent ps k j).isSome) (hn : iterParent ps (k + 1) j = none) :
    landsOnRoot ps j k = true := by
  obtain ⟨r, hr⟩ := Option.isSome_iff_exists.mp hs
  unfold landsOnRoot
  rw [hr]
  have hrn : resolvedParent ps r = none := by
    have : (iterParent ps k j).bind (resolvedParent ps) = none := hn
    rw [hr] at this
    simpa using this
  simp [iterParent_lt ps j hj k r hr, hrn]

theorem landsOnRoot_unique (ps : List FlatPage) (j k1 k2 : Nat)
    (h1 : landsOnRoot ps j k1 = true) (h2 : landsOnRoot ps j k2 = true) : k1 = k2 := by
  rcases Nat.lt_trichotomy k1 k2 with h | h | h
  · exfalso
    have hd1 := (landsOnRoot_dies ps j k1 h1).2
    have := iterParent_none_mono ps (k1 + 1) k2 j h hd1
    have hs2 := (landsOnRoot_dies ps j k2 h2).1
    rw [this] at hs2
    cases hs2
  · exact h
  · exfalso
    have hd2 := (landsOnRoot_dies ps j k2 h2).2
    have := iterParent_none_mono ps (k2 + 1) k1 j h hd2
    have hs1 := (landsOnRoot_dies ps j k1 h1).1
    rw [this] at hs1
    cases hs1

theorem iterParent_boundary (ps : List FlatPage) (j : Nat) :
    ∀ m, iterParent ps (m + 1) j = none →
      ∃ k, k ≤ m ∧ (iterParent ps k j).isSome ∧ iterParent ps (k + 1) j = none := by
  intro m
  induction m with
  | zero =>
    intro h
    exact ⟨0, Nat.le_refl 0, by simp [iterParent], h⟩
  | succ m ihm =>
    intro h
    cases hm : iterParent ps (m + 1) j with
    | none =>
      obtain ⟨k, hk, ha, hb⟩ := ihm hm
      exact ⟨k, Nat.le_succ_of_le hk, ha, hb⟩
    | some r =>
      exact ⟨m + 1, Nat.le_refl _, by simp [hm], h⟩

theorem landsOnRoot_false_of_ge (ps : List FlatPage) (j : Nat)
    (hj : ps.length ≤ j) : ∀ k, landsOnRoot ps j k = false := by
  intro k
  cases k with
  | zero =>
    unfold landsOnRoot
    show (match some j with
      | none => false
      | some r => decide (r < ps.length) && (resolvedParent ps r).isNone) = false
    simp [Nat.not_lt.mpr hj]
  | succ k =>
    have h1 : iterParent ps 1 j = none := by
      show (iterParent ps 0 j).bind (resolvedParent ps) = none
      show (some j).bind (resolvedParent ps) = none
      simp [resolvedParent_none_of_ge ps j hj]
    have := iterParent_none_mono ps 1 (k + 1) j (Nat.succ_le_succ (Nat.zero_le k)) h1
    unfold landsOnRoot
    rw [this]

theorem forest_collect_length (ps : List FlatPage) (hac : acyclicParents ps) :
    (((placePages ps).roots.map (collectTree ps ps.length)).flatten).length = ps.length := by
  have hperm : (((placePages ps).roots.map (collectTree ps ps.length)).flatten).Perm
      (List.range ps.length) := by
    rw [List.perm_iff_count]
    intro a
    rw [count_forest]
    rcases Nat.lt_or_ge a ps.length with ha | ha
    · obtain ⟨k0, hk0le, hs, hn⟩ := iterParent_boundary ps a ps.length (hac a ha)
      have hk0 : landsOnRoot ps a k0 = true := landsOnRoot_of_dies ps a k0 ha hs hn
      rw [length_filter_eq_one_of_unique _ _ k0 (List.nodup_range _)
        (List.mem_range.mpr (Nat.lt_succ_of_le hk0le)) hk0
        (fun b _ hb => landsOnRoot_unique ps a b k0 hb hk0),
        List.count_eq_one_of_mem (List.nodup_range _) (List.mem_range.mpr ha)]
    · have h1 : (List.range (ps.length + 1)).filter (landsOnRoot ps a) = [] := by
        rw [List.filter_eq_nil_iff]
        intro k _
        simp [landsOnRoot_false_of_ge ps a ha k]
      rw [h1, List.count_eq_zero_of_not_mem
        (fun hmem => absurd (List.mem_range.mp hmem) (Nat.not_lt.mpr ha))]
      rfl
  rw [hperm.length_eq, List.length_range]

theorem countHF_ofList (l : List HNode) :
    countHF (HForest.ofList l) = (l.map countHN).sum := by
  induction l with
  | nil => rfl
  | cons n rest ih => simp [HForest.ofList, countHF, ih]

theorem countHF_toList (f : HForest) :
    ((HForest.toList f).map countHN).sum = countHF f := by
  match f with
  | .nil => rfl
  | .cons n rest => simp [HForest.toList, countHF, countHF_toList rest]

theorem countHN_buildTree (ps : List FlatPage) :
    ∀ fuel j, countHN (buildTree ps fuel j) = (collectTree ps fuel j).length := by
  intro fuel
  induction fuel with
  | zero =>
    intro j
    rfl
  | succ f ih =>
    intro j
    show countHN (.node (pageAt ps j)
      (HForest.ofList (((placePages ps).kids j).map (buildTree ps f)))) = _
    rw [countHN, countHF_ofList, List.map_map]
    show 1 + (((placePages ps).kids j).map (countHN ∘ buildTree ps f)).sum =
      (j :: (((placePages ps).kids j).map (collectTree ps f)).flatten).length
    rw [List.length_cons, List.length_flatten, List.map_map]
    have hmap : (((placePages ps).kids j).map (countHN ∘ buildTree ps f)) =
        (((placePages ps).kids j).map (List.length ∘ collectTree ps f)) := by
      apply List.map_congr_left
      intro c _
      exact ih c
    rw [hmap]
    omega

theorem sum_countHN_sortHierarchyFuel :
    ∀ (fuel : Nat) (ns : List HNode),
      ((sortHierarchyFuel fuel ns).map countHN).sum = (ns.map countHN).sum := by
  intro fuel
  induction fuel with
  | zero => intro ns; rfl
  | succ f ih =>
    intro ns
    show (((List.insertionSort nodeLe ns).map (fun n =>
      match n with
      | .node p cs =>
        HNode.node p (match cs with
          | .cons _ (.cons _ _) => HForest.ofList (sortHierarchyFuel f cs.toList)
          | _ => cs))).map countHN).sum = _
    rw [List.map_map]
    have hfix : ((List.insertionSort nodeLe ns).map (countHN ∘ (fun n =>
        match n with
        | .node p cs =>
          HNode.node p (match cs with
            | .cons _ (.cons _ _) => HForest.ofList (sortHierarchyFuel f cs.toList)
            | _ => cs)))) = ((List.insertionSort nodeLe ns).map countHN) := by
      apply List.map_congr_left
      intro n _
      match n with
      | .node p cs =>
        match cs with
        | .nil => rfl
        | .cons c .nil => rfl
        | .cons c1 (.cons c2 rest) =>
          show countHN (.node p (HForest.ofList
            (sortHierarchyFuel f (HForest.cons c1 (HForest.cons c2 rest)).toList))) = _
          rw [countHN, countHF_ofList, ih, countHF_toList]
          rfl
    rw [hfix]
    exact ((List.perm_insertionSort nodeLe ns).map countHN).sum_eq

mutual
theorem countPN_finalizeNode : ∀ (h : HNode) (lvl : Nat),
    countPN (finalizeNode h lvl) = countHN h
  | .node p cs, lvl => by
    show countPN (.node p.id p.title p.htmlContent p.order lvl
      (finalizeForest cs (lvl + 1))) = countHN (.node p cs)
    rw [countPN, countHN, countPF_finalizeForest cs (lvl + 1)]
theorem countPF_finalizeForest : ∀ (f : HForest) (lvl : Nat),
    countPF (finalizeForest f lvl) = countHF f
  | .nil, _ => rfl
  | .cons n rest, lvl => by
    show countPF (.cons (finalizeNode n lvl) (finalizeForest rest lvl)) = countHF (.cons n rest)
    rw [countPF, countHF, countPN_finalizeNode n lvl, countPF_finalizeForest rest lvl]
end

theorem totalNodes_buildHierarchy (ps : List FlatPage) (hac : acyclicParents ps) :
    totalNodes (buildHierarchy ps) = ps.length := by
  unfold totalNodes buildHierarchy
  rw [List.map_map]
  have h1 : ((sortHierarchyFuel (ps.length + 1) (assembleForest ps)).map
      (countPN ∘ fun r => finalizeNode r 0)) =
      ((sortHierarchyFuel (ps.length + 1) (assembleForest ps)).map countHN) := by
    apply List.map_congr_left
    intro n _
    exact countPN_finalizeNode n 0
  rw [h1, sum_countHN_sortHierarchyFuel]
  unfold assembleForest
  rw [List.map_map]
  have h2 : ((placePages ps).roots.map (countHN ∘ buildTree ps ps.length)) =
      ((placePages ps).roots.map (List.length ∘ collectTree ps ps.length)) := by
    apply List.map_congr_left
    intro r _
    exact countHN_buildTree ps ps.length r
  rw [h2]
  have h3 : ((placePages ps).roots.map (List.length ∘ collectTree ps ps.length)).sum =
      (((placePages ps).roots.map (collectTree ps ps.length)).flatten).length := by
    rw [List.length_flatten, List.map_map]
  rw [h3, forest_collect_length ps hac]

theorem withIdx_length {α : Type} : ∀ (k : Nat) (l : List α), (withIdx k l).length = l.length := by
  intro k l
  induction l generalizing k with
  | nil => rfl
  | cons x rest ih => simp [withIdx, ih]

/-- C4 (amended): for every modern document, flat extraction yields exactly
one record per `odeNavStructure` element; the empty flat list assembles to
an empty tree (not an error); and whenever the extracted records' parent
declarations are acyclic (every chain of parent references reaches a
root), the assembled tree contains exactly N nodes across all levels. -/
theorem modernPageCount_spec (d : XMLDocument) :
    (parseModernPages d).length = countTagDoc d "odeNavStructure" ∧
    buildHierarchy [] = [] ∧
    (acyclicParents (parseModernPages d) →
      totalNodes (buildHierarchy (parseModernPages d)) = (parseModernPages d).length) := by
  refine ⟨?_, rfl, fun hac => totalNodes_buildHierarchy _ hac⟩
  unfold parseModernPages
  rw [List.length_map, withIdx_length, docElems_length]

/-- Counterexample for C4 as frozen: a well-formed modern document with two
records of distinct ids `a`, `b` that declare each other as parent — both
are attached beneath each other, neither joins the roots, and the
returned tree has 0 nodes instead of 2. -/
theorem modernPageCount_counterexample :
    (parseModernPages c4CycleDoc).map (fun p => p.id) = ["a", "b"] ∧
    (parseModernPages c4CycleDoc).length = 2 ∧
    totalNodes (buildHierarchy (parseModernPages c4CycleDoc)) = 0 := by
  exact ⟨by decide, by decide, by decide⟩

/-- Witness for C4: the amended theorem applied at a one-page modern
document, whose parent declarations are trivially acyclic. -/
theorem modernPageCount_spec_witness :
    acyclicParents (parseModernPages c4OnePageDoc) ∧
    (parseModernPages c4OnePageDoc).length = 1 ∧
    countTagDoc c4OnePageDoc "odeNavStructure" = 1 ∧
    totalNodes (buildHierarchy (parseModernPages c4OnePageDoc)) = 1 := by
  have hac : acyclicParents (parseModernPages c4OnePageDoc) := by
    unfold acyclicParents
    decide
  have h := modernPageCount_spec c4OnePageDoc
  refine ⟨hac, by decide, by decide, ?_⟩
  have := h.2.2 hac
  rw [this]
  decide

/-- Invariant of the resource-path set: duplicate-free, every element a
normalized candidate. -/
def goodPathAcc (acc : List String) : Prop :=
  acc.Nodup ∧ ∀ x ∈ acc, ∃ raw, x = normalizeResourcePath raw

theorem goodPathAcc_addUnique (acc : List String) (raw : String) (h : goodPathAcc acc) :
    goodPathAcc (addUnique acc (normalizeResourcePath raw)) := by
  unfold addUnique
  by_cases hmem : normalizeResourcePath raw ∈ acc
  · rw [if_pos hmem]
    exact h
  · rw [if_neg hmem]
    constructor
    · simp [List.nodup_append, h.1, hmem]
    · intro x hx
      rcases List.mem_append.mp hx with hx | hx
      · exact h.2 x hx
      · exact ⟨raw, by simpa using hx⟩

theorem foldl_preserves {α β : Type} (P : β → Prop) (f : β → α → β)
    (hf : ∀ b a, P b → P (f b a)) : ∀ (l : List α) (b : β), P b → P (l.foldl f b) := by
  intro l
  induction l with
  | nil => intro b hb; exact hb
  | cons a rest ih => intro b hb; exact ih (f b a) (hf b a hb)

theorem goodPathAcc_regexScanInto (text : String) (acc : List String) (h : goodPathAcc acc) :
    goodPathAcc (regexScanInto text acc) := by
  unfold regexScanInto
  apply foldl_preserves goodPathAcc _ _ (scanAttrs text) acc h
  intro b a hb
  by_cases hf : resourceFolderTest a = true
  · rw [if_pos hf]
    exact goodPathAcc_addUnique b a hb
  · rw [if_neg hf]
    exact hb

mutual
theorem goodPathAcc_collect : ∀ (v : JVal) (acc : List String),
    goodPathAcc acc → goodPathAcc (collectPathsFromJson v acc)
  | .null, _, h => h
  | .bool _, _, h => h
  | .num _, _, h => h
  | .str s, acc, h => by
    show goodPathAcc (if s ≠ "" ∧ resourceFolderTest s then
      addUnique acc (normalizeResourcePath s) else acc)
    by_cases hc : s ≠ "" ∧ resourceFolderTest s
    · rw [if_pos hc]
      exact goodPathAcc_addUnique acc s h
    · rw [if_neg hc]
      exact h
  | .arr items, acc, h => goodPathAcc_collectArr items acc h
  | .obj fields, acc, h => goodPathAcc_collectObj fields acc h
theorem goodPathAcc_collectArr : ∀ (items : JArr) (acc : List String),
    goodPathAcc acc → goodPathAcc (collectPathsFromJsonArr items acc)
  | .nil, _, h => h
  | .cons v rest, acc, h => goodPathAcc_collectArr rest _ (goodPathAcc_collect v acc h)
theorem goodPathAcc_collectObj : ∀ (fields : JObj) (acc : List String),
    goodPathAcc acc → goodPathAcc (collectPathsFromJsonObj fields acc)
  | .nil, _, h => h
  | .cons _ v rest, acc, h => goodPathAcc_collectObj rest _ (goodPathAcc_collect v acc h)
end

theorem goodPathAcc_extractResourcePaths (jsonParse : String → Option JVal) (d : XMLDocument) :
    goodPathAcc (extractResourcePaths jsonParse d) := by
  unfold extractResourcePaths
  apply foldl_preserves goodPathAcc
  · intro b node hb
    cases hjp : jsonParse (textContent node) with
    | some j => exact goodPathAcc_collect j b hb
    | none => exact goodPathAcc_regexScanInto _ b hb
  · apply foldl_preserves goodPathAcc
    · intro b node hb
      exact goodPathAcc_regexScanInto _ b hb
    · exact ⟨List.nodup_nil, by simp⟩

theorem findMissing_foldl (zipHas : String → Bool) :
    ∀ (l : List String) (init : List String),
      l.foldl (fun missing p =>
        let normalized := normalizeResourcePath p
        if zipHas normalized then missing
        else if zipHas (encodeURI normalized) then missing
        else missing ++ [p]) init =
      init ++ l.filter (fun p => !zipHas (normalizeResourcePath p) &&
        !zipHas (encodeURI (normalizeResourcePath p))) := by
  intro l
  induction l with
  | nil => simp
  | cons p rest ih =>
    intro init
    rw [List.foldl_cons, List.filter_cons]
    show List.foldl _ (if zipHas (normalizeResourcePath p) = true then init
        else if zipHas (encodeURI (normalizeResourcePath p)) = true then init
        else init ++ [p]) rest = _
    by_cases h1 : zipHas (normalizeResourcePath p) = true
    · rw [if_pos h1, ih]
      have hq : (!zipHas (normalizeResourcePath p) &&
          !zipHas (encodeURI (normalizeResourcePath p))) = false := by simp [h1]
      rw [hq]
      simp
    · by_cases h2 : zipHas (encodeURI (normalizeResourcePath p)) = true
      · rw [if_neg h1, if_pos h2, ih]
        have hq : (!zipHas (normalizeResourcePath p) &&
            !zipHas (encodeURI (normalizeResourcePath p))) = false := by simp [h2]
        rw [hq]
        simp
      · rw [if_neg h1, if_neg h2, ih]
        have hq : (!zipHas (normalizeResourcePath p) &&
            !zipHas (encodeURI (normalizeResourcePath p))) = true := by simp [h1, h2]
        rw [hq]
        simp

/-- C8: `extractResourcePaths` returns a duplicate-free list whose every
element is a normalized candidate path; `findMissingResources` returns
exactly the paths the container lacks under both the normalized and the
percent-re-encoded lookup; and on HTML content `<img src='content/x.png'>`
the extraction yields `["content/x.png"]`, which `findMissingResources`
reports missing from an empty container and absent from the missing list
of a container holding that file. -/
theorem extractResourcePaths_spec :
    (∀ (jsonParse : String → Option JVal) (d : XMLDocument),
      (extractResourcePaths jsonParse d).Nodup) ∧
    (∀ (jsonParse : String → Option JVal) (d : XMLDocument) (x : String),
      x ∈ extractResourcePaths jsonParse d → ∃ raw, x = normalizeResourcePath raw) ∧
    (∀ (paths : List String) (zipHas : String → Bool),
      findMissingResources paths zipHas =
        paths.filter (fun p => !zipHas (normalizeResourcePath p) &&
          !zipHas (encodeURI (normalizeResourcePath p)))) ∧
    extractResourcePaths (fun _ => none) c8Doc = ["content/x.png"] ∧
    findMissingResources ["content/x.png"] (fun _ => false) = ["content/x.png"] ∧
    findMissingResources ["content/x.png"] (fun s => s == "content/x.png") = [] := by
  refine ⟨?_, ?_, ?_, by decide, by decide, by decide⟩
  · intro jsonParse d
    exact (goodPathAcc_extractResourcePaths jsonParse d).1
  · intro jsonParse d x hx
    exact (goodPathAcc_extractResourcePaths jsonParse d).2 x hx
  · intro paths zipHas
    unfold findMissingResources
    by_cases hp : paths.isEmpty = true
    · rw [if_pos hp, List.isEmpty_iff.mp hp]
      rfl
    · rw [if_neg hp, findMissing_foldl]
      rfl

/-- Witness for C8: the theorem applied at the concrete fixture — the
normalized-element obligation discharged at `"content/x.png"` (a member of
the extraction result) and the filter characterization instantiated at the
empty container. -/
theorem extractResourcePaths_spec_witness :
    (extractResourcePaths (fun _ => none) c8Doc).Nodup ∧
    (∃ raw, "content/x.png" = normalizeResourcePath raw) ∧
    findMissingResources ["content/x.png"] (fun _ => false) =
      (["content/x.png"] : List String).filter (fun p => !(fun _ => false) (normalizeResourcePath p) &&
        !(fun _ => false) (encodeURI (normalizeResourcePath p))) := by
  refine ⟨extractResourcePaths_spec.1 (fun _ => none) c8Doc, ?_, ?_⟩
  · exact extractResourcePaths_spec.2.1 (fun _ => none) c8Doc "content/x.png" (by decide)
  · exact extractResourcePaths_spec.2.2.1 ["content/x.png"] (fun _ => false)

/-- C10: `generateElpViewData` returns an empty array (not an error) for a
`null`/`undefined` input, for a document without a root element, and for
every document whose flat extraction yields zero page records. -/
theorem generateElpViewData_empty_spec :
    generateElpViewData none = [] ∧
    (∀ d : XMLDocument, d.documentElement = none → generateElpViewData (some d) = []) ∧
    (∀ d : XMLDocument, flatExtract d = [] → generateElpViewData (some d) = []) := by
  refine ⟨rfl, ?_, ?_⟩
  · intro d h
    simp only [generateElpViewData, h]
  · intro d h
    cases hde : d.documentElement with
    | none => simp only [generateElpViewData, hde]
    | some r => simp [generateElpViewData, hde, h]

/-- Witness for C10: the theorem applied at a rootless document and at a
modern document with zero page records. -/
theorem generateElpViewData_empty_spec_witness :
    generateElpViewData none = [] ∧
    generateElpViewData (some (⟨none⟩ : XMLDocument)) = [] ∧
    flatExtract c10EmptyDoc = [] ∧
    generateElpViewData (some c10EmptyDoc) = [] := by
  have h := generateElpViewData_empty_spec
  exact ⟨h.1, h.2.1 ⟨none⟩ rfl, by decide, h.2.2 c10EmptyDoc (by decide)⟩
